import Mathlib

/-!
Verification of the TCL navigation providers (document symbols, go-to-definition,
folding, hover) against their natural-language specification.  The source is a
set of regex-driven text scanners over raw document text; this development embeds
those scanners as executable functions over `List Char` (offsets are `Nat`,
matching the source's position/offset bijection) and proves or refutes the
specified properties.
-/

namespace TclNav

/-- The opening brace character. -/
def lbrace : Char := Char.ofNat 123

/-- The closing brace character. -/
def rbrace : Char := Char.ofNat 125

/-- The newline character. -/
def nl : Char := '\n'

/-- JavaScript `\s` (whitespace class), restricted to the ASCII range used by the
analysed documents. -/
def isSpaceChar (c : Char) : Bool :=
  c = ' ' || c = '\t' || c = '\n' || c = '\r' || c = '\x0b' || c = '\x0c'

/-- JavaScript `\w` (word character class). -/
def isWordCharB (c : Char) : Bool :=
  c.isAlpha || c.isDigit || c = '_'

/-- Offset of the end of the line containing offset `p` (the offset of the first
newline at or after `p`, or the text length).  Mirrors
`document.lineAt(pos.line).range.end` under the position/offset bijection. -/
def lineEnd (text : List Char) (p : Nat) : Nat :=
  p + ((text.drop p).takeWhile (fun c => c ≠ nl)).length

/-- Zero-based line number of offset `p`: the number of newlines strictly before it. -/
def lineOf (text : List Char) (p : Nat) : Nat :=
  ((text.take p).filter (fun c => c = nl)).length

/-- Text between offsets `a` (inclusive) and `b` (exclusive); `text.substring(a, b)`
for `a ≤ b`. -/
def slice (text : List Char) (a b : Nat) : List Char :=
  (text.drop a).take (b - a)

/-- JavaScript `String.prototype.trim`. -/
def trimChars (l : List Char) : List Char :=
  ((l.dropWhile isSpaceChar).reverse.dropWhile isSpaceChar).reverse

/-- Display truncation used by the symbol provider: values longer than 20
characters are cut and suffixed with an ellipsis. -/
def truncate20 (l : List Char) : List Char :=
  if 20 < l.length then l.take 20 ++ "...".toList else l

/-- JavaScript truthiness test applied by the source to brace-match results
(`x ? a : b`, `if (x)`): `0` counts as absent. -/
def truthy (o : Option Nat) : Option Nat :=
  match o with
  | some 0 => none
  | o => o

/-- Scanning core of `findMatchingBrace`: walk the suffix with a running depth
count (the `braceCount` variable of the source), returning the absolute offset at
which the count reaches zero. -/
def findMatchingBraceAux : List Char → Nat → Nat → Option Nat
  | [], _, _ => none
  | c :: rest, pos, count =>
    let count' := if c = lbrace then count + 1 else if c = rbrace then count - 1 else count
    if count' = 0 then some pos
    else findMatchingBraceAux rest (pos + 1) count'

/-- `findMatchingBrace(text, openBracePos)`: depth counter starts at 1 at the
character after `openBracePos`, incremented on `{`, decremented on `}`; returns
the offset where the depth reaches 0, or `none` if the end of text is reached
first. -/
def findMatchingBrace (text : List Char) (openBracePos : Nat) : Option Nat :=
  findMatchingBraceAux (text.drop (openBracePos + 1)) (openBracePos + 1) 1

/-- Variant taking a possibly negative offset (`nsMatch.index + indexOf('{')` can
be `index - 1` when the namespace header matched without a brace). -/
def findMatchingBraceI (text : List Char) (openBracePos : Int) : Option Nat :=
  let start := (openBracePos + 1).toNat
  findMatchingBraceAux (text.drop start) start 1

/-- Depth contribution of one character: +1 for `{`, -1 for `}`, 0 otherwise. -/
def braceDelta (c : Char) : Int :=
  if c = lbrace then 1 else if c = rbrace then -1 else 0

/-- Sum of brace deltas over a character list. -/
def braceSum (l : List Char) : Int :=
  (l.map braceDelta).sum

/-- Brace depth after scanning characters `i+1 .. j` of `text`, starting from
depth 1 at the opening delimiter at offset `i`. -/
def depthAfter (text : List Char) (i j : Nat) : Int :=
  1 + braceSum ((text.drop (i + 1)).take (j - i))

/-! ### Regex matchers

Each regular expression of the source is embedded as a deterministic matcher on
a text suffix.  A matcher receives the character preceding the suffix (for the
`^` and `\b` anchors) and returns the match data, with all offsets relative to
the start of the suffix.  Greedy character-class runs followed by a character
outside the class need no backtracking, so each matcher is a direct scan; the
few places where JavaScript backtracking is observable (`\s+(.+)$`, the optional
namespace part of a `proc` header, the two alternatives of the namespace header)
are resolved explicitly below, following the engine's leftmost/greedy order. -/

/-- Consume a literal. -/
def pLit (pat s : List Char) : Option (Nat × List Char) :=
  if pat.isPrefixOf s then some (pat.length, s.drop pat.length) else none

/-- Consume the maximal (possibly empty) run of characters satisfying `f`. -/
def pRun (f : Char → Bool) (s : List Char) : Nat × List Char :=
  ((s.takeWhile f).length, s.dropWhile f)

/-- Consume the maximal run of characters satisfying `f`, requiring at least one. -/
def pRun1 (f : Char → Bool) (s : List Char) : Option (Nat × List Char) :=
  if (pRun f s).1 = 0 then none else some (pRun f s)

/-- Consume one fixed character. -/
def pChar (c : Char) (s : List Char) : Option (Nat × List Char) :=
  match s with
  | [] => none
  | x :: r => if x = c then some (1, r) else none

/-- Whether a match may start here under the `m`-flagged `^` anchor: at the very
start of the text or just after a newline. -/
def lineStartOk (prev : Option Char) : Bool :=
  match prev with
  | none => true
  | some c => c = nl

/-- Whether a `\b` boundary precedes a word character here. -/
def wordBoundaryOk (prev : Option Char) : Bool :=
  match prev with
  | none => true
  | some c => !isWordCharB c

/-- Largest index in `l` whose character satisfies `f`. -/
def lastIdxWhere (f : Char → Bool) (l : List Char) : Option Nat :=
  match l.reverse.findIdx? f with
  | some k => some (l.length - 1 - k)
  | none => none

/-- The `\s+(.+)$` tail shared by the `set`/`variable` declaration patterns
(`m` flag): a greedy whitespace run, then at least one non-newline character up
to the end of the line.  When the whitespace run extends to the end of the text,
the engine backtracks until the remainder starts with a non-newline whitespace
character.  Returns `(consumed, value)`. -/
def pWsValueEol (s : List Char) : Option (Nat × List Char) :=
  let w := (s.takeWhile isSpaceChar).length
  if w = 0 then none
  else if _h : w < s.length then
    -- the character after the maximal run is non-whitespace, hence not a newline
    let v := (s.drop w).takeWhile (fun c => c ≠ nl)
    some (w + v.length, v)
  else
    match lastIdxWhere (fun c => c ≠ nl) ((s.take w).drop 1) with
    | some k =>
      let j := k + 1
      let v := (s.drop j).takeWhile (fun c => c ≠ nl)
      some (j + v.length, v)
    | none => none

/-- Match data for `^proc\s+([^:\s]+::)?(\w+)\s*\x7b([^\x7d]*)\x7d\s*\x7b`
(the global-procedure header). -/
structure ProcHeadM where
  nsPart : Option (List Char)
  procName : List Char
  argsText : List Char
  len : Nat
  deriving Repr, DecidableEq

/-- Tail of the procedure-header pattern after the optional namespace part:
`(\w+)\s*\x7b([^\x7d]*)\x7d\s*\x7b`. -/
def procHeadTail (s : List Char) : Option (Nat × List Char × List Char) := do
  let (n1, r1) ← pRun1 isWordCharB s
  let name := s.take n1
  let (n2, r2) := pRun isSpaceChar r1
  let (n3, r3) ← pChar lbrace r2
  let (n4, r4) := pRun (fun c => c ≠ rbrace) r3
  let args := r3.take n4
  let (n5, r5) ← pChar rbrace r4
  let (n6, r6) := pRun isSpaceChar r5
  let (n7, _) ← pChar lbrace r6
  some (n1 + n2 + n3 + n4 + n5 + n6 + n7, name, args)

/-- Matcher for the global-procedure header regex of `processProcedures`. -/
def matchProcHeader (prev : Option Char) (s : List Char) : Option ProcHeadM :=
  if !lineStartOk prev then none
  else do
    let (n1, r1) ← pLit "proc".toList s
    let (n2, r2) ← pRun1 isSpaceChar r1
    let (g, rg) := pRun (fun c => !isSpaceChar c && c ≠ ':') r2
    let grouped : Option ProcHeadM := do
      if g = 0 then none
      else
        let (n3, r3) ← pLit "::".toList rg
        let (n4, name, args) ← procHeadTail r3
        some ⟨some (r2.take g), name, args, n1 + n2 + g + n3 + n4⟩
    match grouped with
    | some m => some m
    | none => do
      let (n4, name, args) ← procHeadTail r2
      some ⟨none, name, args, n1 + n2 + n4⟩

/-- Matcher for `proc\s+(\w+)\s*\x7b([^\x7d]*)\x7d\s*\x7b`
(procedures inside a namespace body; no anchor). -/
def matchNsProcHeader (_ : Option Char) (s : List Char) :
    Option (List Char × List Char × Nat) := do
  let (n1, r1) ← pLit "proc".toList s
  let (n2, r2) ← pRun1 isSpaceChar r1
  let (n4, name, args) ← procHeadTail r2
  some (name, args, n1 + n2 + n4)

/-- Match data for the namespace header
`^namespace\s+eval\s+(\w+)(?:\s*\x7b([\s\S]*?)^\x7d|\s+([^\x7b]+))`. -/
structure NsHeadM where
  nsName : List Char
  content : Option (List Char)
  braceRel : Option Nat
  len : Nat
  deriving Repr, DecidableEq

/-- Scan for the first position whose character is `\x7d` preceded by a newline
(the interior `^\x7d` of the namespace-header pattern), threading the previous
character. -/
def findCaretBrace : Char → List Char → Option Nat
  | _, [] => none
  | prev, c :: rest =>
    if c = rbrace && prev = nl then some 0
    else match findCaretBrace c rest with
      | some k => some (k + 1)
      | none => none

/-- Matcher for the namespace-header regex of `processNamespaces`. -/
def matchNsHeader (prev : Option Char) (s : List Char) : Option NsHeadM :=
  if !lineStartOk prev then none
  else do
    let (n1, r1) ← pLit "namespace".toList s
    let (n2, r2) ← pRun1 isSpaceChar r1
    let (n3, r3) ← pLit "eval".toList r2
    let (n4, r4) ← pRun1 isSpaceChar r3
    let (n5, r5) ← pRun1 isWordCharB r4
    let name := r4.take n5
    let base := n1 + n2 + n3 + n4 + n5
    -- first alternative: \s*\x7b([\s\S]*?)^\x7d
    let alt1 : Option NsHeadM := do
      let (n6, r6) := pRun isSpaceChar r5
      let (n7, r7) ← pChar lbrace r6
      let q ← findCaretBrace lbrace r7
      some ⟨name, some (r7.take q), some (base + n6), base + n6 + n7 + q + 1⟩
    match alt1 with
    | some m => some m
    | none =>
      -- second alternative: \s+([^\x7b]+)
      let w := (r5.takeWhile isSpaceChar).length
      if w = 0 then none
      else if h : w < r5.length then
        if (r5.get ⟨w, h⟩) = lbrace then
          if 2 ≤ w then
            let v := (r5.drop (w - 1)).takeWhile (fun c => c ≠ lbrace)
            some ⟨name, none, none, base + (w - 1) + v.length⟩
          else none
        else
          let v := (r5.drop w).takeWhile (fun c => c ≠ lbrace)
          some ⟨name, none, none, base + w + v.length⟩
      else
        if 2 ≤ w then
          let v := (r5.drop (w - 1)).takeWhile (fun c => c ≠ lbrace)
          some ⟨name, none, none, base + (w - 1) + v.length⟩
        else none

/-- Matcher for `^set\s+::(\w+)\s+(.+)$` (global variables). -/
def matchGlobalVarDecl (prev : Option Char) (s : List Char) :
    Option (List Char × List Char × Nat) :=
  if !lineStartOk prev then none
  else do
    let (n1, r1) ← pLit "set".toList s
    let (n2, r2) ← pRun1 isSpaceChar r1
    let (n3, r3) ← pLit "::".toList r2
    let (n4, r4) ← pRun1 isWordCharB r3
    let name := r3.take n4
    let (n5, v) ← pWsValueEol r4
    some (name, v, n1 + n2 + n3 + n4 + n5)

/-- Matcher for `set\s+(\w+)\s+(.+)$` (local variables in a procedure body). -/
def matchLocalSet (_ : Option Char) (s : List Char) :
    Option (List Char × List Char × Nat) := do
  let (n1, r1) ← pLit "set".toList s
  let (n2, r2) ← pRun1 isSpaceChar r1
  let (n3, r3) ← pRun1 isWordCharB r2
  let name := r2.take n3
  let (n4, v) ← pWsValueEol r3
  some (name, v, n1 + n2 + n3 + n4)

/-- Matcher for `variable\s+(\w+)(?:\s+(.+))?$` (namespace variables). -/
def matchNsVarDecl (_ : Option Char) (s : List Char) :
    Option (List Char × Option (List Char) × Nat) := do
  let (n1, r1) ← pLit "variable".toList s
  let (n2, r2) ← pRun1 isSpaceChar r1
  let (n3, r3) ← pRun1 isWordCharB r2
  let name := r2.take n3
  let base := n1 + n2 + n3
  match pWsValueEol r3 with
  | some (n4, v) => some (name, some v, base + n4)
  | none =>
    match r3 with
    | [] => some (name, none, base)
    | c :: _ => if c = nl then some (name, none, base) else none

/-- Matcher for `array\s+set\s+(\w+)\s+\x7b([^\x7d]*)\x7d` (array declarations). -/
def matchArraySet (_ : Option Char) (s : List Char) :
    Option (List Char × Nat) := do
  let (n1, r1) ← pLit "array".toList s
  let (n2, r2) ← pRun1 isSpaceChar r1
  let (n3, r3) ← pLit "set".toList r2
  let (n4, r4) ← pRun1 isSpaceChar r3
  let (n5, r5) ← pRun1 isWordCharB r4
  let name := r4.take n5
  let (n6, r6) ← pRun1 isSpaceChar r5
  let (n7, r7) ← pChar lbrace r6
  let (n8, r8) := pRun (fun c => c ≠ rbrace) r7
  let (n9, _) ← pChar rbrace r8
  some (name, n1 + n2 + n3 + n4 + n5 + n6 + n7 + n8 + n9)

/-- Control keywords, in the alternation order of the source regex. -/
def controlKws : List (List Char) :=
  ["if", "elseif", "else", "foreach", "for", "while", "switch", "catch"].map
    String.toList

/-- Try the control keywords in alternation order; a keyword matches when it is
a literal prefix followed by a `\b` boundary. -/
def pickControlKw (s : List Char) : List (List Char) → Option (List Char)
  | [] => none
  | kw :: rest =>
    match pLit kw s with
    | some (_, r) =>
      match r with
      | [] => some kw
      | c :: _ => if isWordCharB c then pickControlKw s rest else some kw
    | none => pickControlKw s rest

/-- Matcher for `\b(if|elseif|else|foreach|for|while|switch|catch)\b[^\x7b]*\x7b.*`
(control blocks). -/
def matchControl (prev : Option Char) (s : List Char) :
    Option (List Char × Nat) :=
  if !wordBoundaryOk prev then none
  else do
    let kw ← pickControlKw s controlKws
    let r1 := s.drop kw.length
    let (n2, r2) := pRun (fun c => c ≠ lbrace) r1
    let (n3, r3) ← pChar lbrace r2
    let (n4, _) := pRun (fun c => c ≠ nl) r3
    some (kw, kw.length + n2 + n3 + n4)

/-- Matcher for `proc\s+NAME\s*\x7b` (procedure definition search). -/
def matchProcNameBrace (nm : List Char) (_ : Option Char) (s : List Char) :
    Option Nat := do
  let (n1, r1) ← pLit "proc".toList s
  let (n2, r2) ← pRun1 isSpaceChar r1
  let (n3, r3) ← pLit nm r2
  let (n4, r4) := pRun isSpaceChar r3
  let (n5, _) ← pChar lbrace r4
  some (n1 + n2 + n3 + n4 + n5)

/-- Matcher for `namespace\s+eval\s+NAME\s*\x7b` (namespace definition search). -/
def matchNsEvalNameBrace (nm : List Char) (_ : Option Char) (s : List Char) :
    Option Nat := do
  let (n1, r1) ← pLit "namespace".toList s
  let (n2, r2) ← pRun1 isSpaceChar r1
  let (n3, r3) ← pLit "eval".toList r2
  let (n4, r4) ← pRun1 isSpaceChar r3
  let (n5, r5) ← pLit nm r4
  let (n6, r6) := pRun isSpaceChar r5
  let (n7, _) ← pChar lbrace r6
  some (n1 + n2 + n3 + n4 + n5 + n6 + n7)

/-- Matcher for `set\s+NAME\s+` (variable definition search). -/
def matchSetNameWs (nm : List Char) (_ : Option Char) (s : List Char) :
    Option Nat := do
  let (n1, r1) ← pLit "set".toList s
  let (n2, r2) ← pRun1 isSpaceChar r1
  let (n3, r3) ← pLit nm r2
  let (n4, _) ← pRun1 isSpaceChar r3
  some (n1 + n2 + n3 + n4)

/-- Matcher for `variable\s+NAME(?:\s+|$)` (variable definition search,
`m` flag). -/
def matchVariableNameWs (nm : List Char) (_ : Option Char) (s : List Char) :
    Option Nat := do
  let (n1, r1) ← pLit "variable".toList s
  let (n2, r2) ← pRun1 isSpaceChar r1
  let (n3, r3) ← pLit nm r2
  match pRun1 isSpaceChar r3 with
  | some (n4, _) => some (n1 + n2 + n3 + n4)
  | none =>
    match r3 with
    | [] => some (n1 + n2 + n3)
    | c :: _ => if c = nl then some (n1 + n2 + n3) else none

/-- Whether a name (within the `[\w:]+` run of `getContainingProcedureRange`'s
pattern) is accepted by the alternation `(\w+|[\w:]+::[\w:]+)`: either free of
colons, or splittable as nonempty-part `::` nonempty-part. -/
def procNameAltOk (l : List Char) : Bool :=
  !l.contains ':' ||
    (List.range l.length).any (fun a =>
      decide (1 ≤ a) && decide (a + 2 < l.length) &&
        (l.get? a == some ':') && (l.get? (a + 1) == some ':'))

/-- Matcher for `proc\s+(\w+|[\w:]+::[\w:]+)\s*\x7b[^\x7d]*\x7d\s*\x7b`
(procedure spans for the containing-scope search). -/
def matchProcAnyName (_ : Option Char) (s : List Char) : Option Nat := do
  let (n1, r1) ← pLit "proc".toList s
  let (n2, r2) ← pRun1 isSpaceChar r1
  let (n3, r3) ← pRun1 (fun c => isWordCharB c || c = ':') r2
  if !procNameAltOk (r2.take n3) then none
  else
    let (n4, r4) := pRun isSpaceChar r3
    let (n5, r5) ← pChar lbrace r4
    let (n6, r6) := pRun (fun c => c ≠ rbrace) r5
    let (n7, r7) ← pChar rbrace r6
    let (n8, r8) := pRun isSpaceChar r7
    let (n9, _) ← pChar lbrace r8
    some (n1 + n2 + n3 + n4 + n5 + n6 + n7 + n8 + n9)

/-! ### Global regex search

`regex.exec` with the `g`/`gm` flags: find the leftmost match at or after the
current position, then continue after the matched text. -/

/-- Leftmost position in the suffix `l` at which the matcher `p` succeeds,
threading the previous character for anchors.  Returns the relative position and
the match data. -/
def scanFirst (p : Option Char → List Char → Option α) :
    Option Char → List Char → Option (Nat × α)
  | _, [] => none
  | prev, c :: rest =>
    match p prev (c :: rest) with
    | some a => some (0, a)
    | none =>
      match scanFirst p (some c) rest with
      | some (j, a) => some (j + 1, a)
      | none => none

/-- First match of `p` in the whole text (a fresh `exec`). -/
def searchFirst (p : Option Char → List Char → Option α) (text : List Char) :
    Option (Nat × α) :=
  scanFirst p none text

/-- Fuel-indexed `exec` loop: collect successive matches, resuming after each
match's end (`lastIndex` semantics).  Matches are paired with their absolute
index. -/
def execAllF (p : Option Char → List Char → Option α) (lenOf : α → Nat) :
    Nat → Option Char → List Char → Nat → List (Nat × α)
  | 0, _, _, _ => []
  | fuel + 1, prev, l, base =>
    match scanFirst p prev l with
    | none => []
    | some (j, a) =>
      let step := j + max (lenOf a) 1
      let prevNext := match (l.take step).getLast? with
        | some c => some c
        | none => prev
      (base + j, a) :: execAllF p lenOf fuel prevNext (l.drop step) (base + step)

/-- All matches of `p` over `text`, with absolute indices. -/
def execAll (p : Option Char → List Char → Option α) (lenOf : α → Nat)
    (text : List Char) : List (Nat × α) :=
  execAllF p lenOf (text.length + 1) none text 0

/-! ### The symbol tree

`vscode.DocumentSymbol` trees.  The children list is part of the mutual
inductive so that tree recursion is structural. -/

/-- Symbol kinds used by the provider. -/
inductive SymKind : Type where
  | namespaceK | functionK | variableK | arrayK | objectK
  deriving DecidableEq, Repr

mutual
/-- A document symbol: name, detail text, kind, full range `[rS, rE]`, selection
range `[sS, sE]` (the declaration span), and children. -/
inductive Sym : Type where
  | mk : (name detail : List Char) → (kind : SymKind) →
      (rS rE sS sE : Nat) → (children : SymList) → Sym
  deriving Repr
/-- A list of document symbols. -/
inductive SymList : Type where
  | nil : SymList
  | cons : Sym → SymList → SymList
  deriving Repr
end

namespace Sym

def name : Sym → List Char | .mk n _ _ _ _ _ _ _ => n
def detail : Sym → List Char | .mk _ d _ _ _ _ _ _ => d
def kind : Sym → SymKind | .mk _ _ k _ _ _ _ _ => k
def rS : Sym → Nat | .mk _ _ _ a _ _ _ _ => a
def rE : Sym → Nat | .mk _ _ _ _ b _ _ _ => b
def sS : Sym → Nat | .mk _ _ _ _ _ g _ _ => g
def sE : Sym → Nat | .mk _ _ _ _ _ _ h _ => h
def children : Sym → SymList | .mk _ _ _ _ _ _ _ ch => ch

end Sym

namespace SymList

/-- Append two symbol lists. -/
def append : SymList → SymList → SymList
  | .nil, l => l
  | .cons s r, l => .cons s (append r l)

/-- A one-element list. -/
def single (s : Sym) : SymList := .cons s .nil

/-- Build a symbol list from a plain list. -/
def ofList : List Sym → SymList
  | [] => .nil
  | s :: r => .cons s (ofList r)

/-- Number of top-level symbols. -/
def length : SymList → Nat
  | .nil => 0
  | .cons _ r => 1 + length r

/-- Top-level names, in order. -/
def names : SymList → List (List Char)
  | .nil => []
  | .cons s r => s.name :: names r

/-- The `n`-th top-level symbol. -/
def nth? : SymList → Nat → Option Sym
  | .nil, _ => none
  | .cons s _, 0 => some s
  | .cons _ r, n + 1 => nth? r n

end SymList

mutual
/-- Total number of symbols in a tree. -/
def symCount : Sym → Nat
  | .mk _ _ _ _ _ _ _ ch => 1 + symListCount ch
/-- Total number of symbols in a forest. -/
def symListCount : SymList → Nat
  | .nil => 0
  | .cons s r => symCount s + symListCount r
end

/-- `vscode.Range.contains` on another range, expressed on offsets:
both endpoints of the contained range lie inside (inclusive). -/
def rangeContains (pS pE cS cE : Nat) : Bool :=
  decide (pS ≤ cS) && decide (cE ≤ pE)

/-- `vscode.Range.contains` on a position, expressed on offsets (inclusive at
both ends). -/
def posInRange (rS rE p : Nat) : Bool :=
  decide (rS ≤ p) && decide (p ≤ rE)

mutual
/-- `findEnclosingSymbol` combined with the `parent.children.push` of
`processControlBlocks`: attach `c` beneath the first symbol of the list whose
range contains `c`'s range, descending recursively; `none` when no top-level
symbol contains it. -/
def insertSym (c : Sym) : SymList → Option SymList
  | .nil => none
  | .cons s rest =>
    if rangeContains s.rS s.rE c.rS c.rE then
      some (.cons (attachSym c s) rest)
    else
      match insertSym c rest with
      | some r => some (.cons s r)
      | none => none
/-- Attach `c` inside symbol `s` (which contains it): descend into the first
containing child, or append to `s`'s children when none contains it. -/
def attachSym (c : Sym) : Sym → Sym
  | .mk n d k a b g h ch =>
    match insertSym c ch with
    | some ch2 => .mk n d k a b g h ch2
    | none => .mk n d k a b g h (ch.append (.single c))
end

/-! ### The document symbol provider (outline query) -/

/-- Detail text for a variable symbol: `value: ...` with display truncation. -/
def valueDetail (v : List Char) : List Char :=
  "value: ".toList ++ truncate20 v

/-- The local-variable symbol built for one `set name value` match of
`processLocalVariables`. -/
def mkLocalVarSym (procBodyStartOffset : Nat)
    (m : Nat × List Char × List Char × Nat) : Sym :=
  let a := procBodyStartOffset + m.1
  let b := procBodyStartOffset + m.1 + m.2.2.2
  Sym.mk m.2.1 (valueDetail (trimChars m.2.2.1)) .variableK a b a b .nil

/-- The array symbol built for one `array set name` match of
`processLocalVariables`. -/
def mkArraySym (procBodyStartOffset : Nat) (m : Nat × List Char × Nat) : Sym :=
  let a := procBodyStartOffset + m.1
  let b := procBodyStartOffset + m.1 + m.2.2
  Sym.mk m.2.1 "array".toList .arrayK a b a b .nil

/-- One step of the `set`-declaration scan of `processLocalVariables`: skip the
match when its name is already among the recorded children. -/
def localSetStep (procBodyStartOffset : Nat) (acc : List Sym)
    (m : Nat × List Char × List Char × Nat) : List Sym :=
  if acc.any (fun child => child.name = m.2.1) then acc
  else acc ++ [mkLocalVarSym procBodyStartOffset m]

/-- The `set name value` pass of `processLocalVariables`. -/
def localSetPhase (procBody : List Char) (procBodyStartOffset : Nat) : List Sym :=
  (execAll matchLocalSet (fun x => x.2.2) procBody).foldl
    (localSetStep procBodyStartOffset) []

/-- Local variables of a procedure body (`processLocalVariables`): a scan for
`set name value` declarations, skipping names already recorded, followed by a
scan for `array set name` declarations appended without that check.
`procBodyStartOffset` is the absolute offset of the body text. -/
def processLocalVariables (procBody : List Char) (procBodyStartOffset : Nat) :
    List Sym :=
  (execAll matchArraySet (fun x => x.2) procBody).foldl
    (fun (acc : List Sym) m => acc ++ [mkArraySym procBodyStartOffset m])
    (localSetPhase procBody procBodyStartOffset)

/-- Variables declared in a namespace body (`processNamespaceVariables`). -/
def processNamespaceVariables (nsContent : List Char)
    (nsContentStartOffset : Nat) : List Sym :=
  (execAll matchNsVarDecl (fun x => x.2.2) nsContent).map
    (fun m =>
      let value := match m.2.2.1 with
        | some v => trimChars v
        | none => []
      let d := if value = [] then "namespace variable".toList else valueDetail value
      let a := nsContentStartOffset + m.1
      let b := nsContentStartOffset + m.1 + m.2.2.2
      Sym.mk m.2.1 d .variableK a b a b .nil)

/-- Detail text for a procedure symbol. -/
def argsDetail (args : List Char) : List Char :=
  if trimChars args = [] then [] else "args: ".toList ++ trimChars args

/-- Procedures declared in a namespace body (`processNamespaceProcedures`); the
brace match for the body runs over the whole document text. -/
def processNamespaceProcedures (text nsContent : List Char)
    (nsContentStartOffset : Nat) : List Sym :=
  (execAll matchNsProcHeader (fun x => x.2.2) nsContent).map
    (fun m =>
      let startOff := nsContentStartOffset + m.1
      let procBodyStart := nsContentStartOffset + m.1 + m.2.2.2 - 1
      let procEndIndex := truthy (findMatchingBrace text procBodyStart)
      let endOff := match procEndIndex with
        | some e => e + 1
        | none => lineEnd text startOff
      let ch := match procEndIndex with
        | some e =>
          processLocalVariables (slice text (procBodyStart + 1) e) (procBodyStart + 1)
        | none => []
      Sym.mk m.2.1 (argsDetail m.2.2.1) .functionK startOff endOff
        startOff (lineEnd text startOff) (.ofList ch))

/-- One namespace symbol built from a namespace-header match
(`processNamespaces` loop body). -/
def buildNsSym (text : List Char) (idx : Nat) (m : NsHeadM) : Sym :=
  let bracePosI : Int := (idx : Int) + (match m.braceRel with
    | some k => (k : Int)
    | none => -1)
  let nsEndMatch := truthy (findMatchingBraceI text bracePosI)
  let endOff := match nsEndMatch with
    | some e => e + 1
    | none => lineEnd text idx
  let nsContent := match m.content with
    | some c => c
    | none => []
  let contentOff := match m.braceRel with
    | some k => idx + k + 1
    | none => idx
  let ch := processNamespaceVariables nsContent contentOff ++
    processNamespaceProcedures text nsContent contentOff
  Sym.mk m.nsName "namespace".toList .namespaceK idx endOff
    idx (lineEnd text idx) (.ofList ch)

/-- `processNamespaces`: all namespace symbols of the document, in match order.
These are the initial top-level symbols, and they are exactly the entries of the
`namespaceMap`. -/
def processNamespaces (text : List Char) : List Sym :=
  (execAll matchNsHeader (fun m => m.len) text).map
    (fun m => buildNsSym text m.1 m.2)

/-- Whether the symbol list has a namespace symbol with the given name
(`namespaceMap.has`). -/
def hasNsNamed (st : SymList) (nsName : List Char) : Bool :=
  match st with
  | .nil => false
  | .cons s r => (s.kind = SymKind.namespaceK && s.name = nsName) || hasNsNamed r nsName

/-- Push a child onto the children of the last namespace symbol with the given
name (`namespaceMap.get(...).children.push`: `Map.set` keeps the latest entry
for a repeated name). -/
def attachToLastNs (st : SymList) (nsName : List Char) (child : Sym) : SymList :=
  match st with
  | .nil => .nil
  | .cons s r =>
    if hasNsNamed r nsName then .cons s (attachToLastNs r nsName child)
    else if s.kind = SymKind.namespaceK && s.name = nsName then
      match s with
      | .mk n d k a b g h ch => .cons (.mk n d k a b g h (ch.append (.single child))) r
    else .cons s (attachToLastNs r nsName child)

/-- One procedure symbol built from a global-procedure header match
(`processProcedures` loop body). -/
def buildProcSym (text : List Char) (idx : Nat) (m : ProcHeadM) : Sym :=
  let procBodyStart := idx + m.len - 1
  let procEndIndex := truthy (findMatchingBrace text procBodyStart)
  let endOff := match procEndIndex with
    | some e => e + 1
    | none => lineEnd text idx
  let ch := match procEndIndex with
    | some e => processLocalVariables (slice text (procBodyStart + 1) e) (procBodyStart + 1)
    | none => []
  Sym.mk m.procName (argsDetail m.argsText) .functionK idx endOff
    idx (lineEnd text idx) (.ofList ch)

/-- `processProcedures`: fold the global-procedure matches over the symbol
state, attaching namespace-qualified procedures to their namespace symbol when
registered, and appending the rest at the top level. -/
def processProcedures (text : List Char) (st : SymList) : SymList :=
  (execAll matchProcHeader (fun m => m.len) text).foldl
    (fun st m =>
      let psym := buildProcSym text m.1 m.2
      match m.2.nsPart with
      | some nsName =>
        if hasNsNamed st nsName then attachToLastNs st nsName psym
        else st.append (.single psym)
      | none => st.append (.single psym)) st

/-- `processGlobalVariables`: append a top-level variable symbol for every
`set ::name value` match. -/
def processGlobalVariables (text : List Char) (st : SymList) : SymList :=
  (execAll matchGlobalVarDecl (fun x => x.2.2) text).foldl
    (fun st m =>
      let a := m.1
      let b := m.1 + m.2.2.2
      st.append (.single (Sym.mk m.2.1 (valueDetail (trimChars m.2.2.1))
        .variableK a b a b .nil))) st

/-- Largest index of `\x7b` in a list (JavaScript `lastIndexOf`). -/
def lastBraceIdx (l : List Char) : Option Nat :=
  lastIdxWhere (fun c => c = lbrace) l

/-- The control-block symbols discovered by `processControlBlocks`: matches
whose body brace is matched and whose range spans more than one line. -/
def controlSymsOf (text : List Char) : List Sym :=
  (execAll matchControl (fun x => x.2) text).foldr
    (fun m acc =>
      match lastBraceIdx (slice text m.1 (m.1 + m.2.2)) with
      | none => acc
      | some rel =>
        let openBracePos := m.1 + rel
        match findMatchingBrace text openBracePos with
        | none => acc
        | some closeBracePos =>
          if lineOf text (closeBracePos + 1) = lineOf text m.1 then acc
          else
            Sym.mk m.2.1 (m.2.1 ++ " block".toList) .objectK
              m.1 (closeBracePos + 1) m.1 (lineEnd text m.1) .nil :: acc) []

/-- Insertion step of `processControlBlocks`: under the first enclosing symbol
when one exists, else at the top level. -/
def insertControlStep (st : SymList) (c : Sym) : SymList :=
  match insertSym c st with
  | some st2 => st2
  | none => st.append (.single c)

/-- `processControlBlocks`: insert every discovered control-block symbol. -/
def processControlBlocks (text : List Char) (st : SymList) : SymList :=
  (controlSymsOf text).foldl insertControlStep st

/-- `provideDocumentSymbols`: the outline query — namespaces, then global
procedures, then global variables, then control blocks. -/
def provideDocumentSymbols (text : List Char) : SymList :=
  processControlBlocks text
    (processGlobalVariables text
      (processProcedures text (.ofList (processNamespaces text))))

/-! ### The definition provider -/

/-- Outcome of a definition query: a location `[s, e)` in the current document,
an invocation of the workspace-wide Cross-File Search with a query string, or no
result. -/
inductive DefOutcome : Type where
  | found (s e : Nat)
  | crossFile (query : List Char)
  | noResult
  deriving DecidableEq, Repr

/-- `isVariableReference`: walk left from the cursor while the characters
belong to `[\w\s()]`, reporting a variable reference when a `$` is reached.
An out-of-range read is the JavaScript `undefined`, which the character-class
test coerces to a matching string, so the walk continues there. -/
def isVariableReference (lineText : List Char) : Nat → Bool
  | 0 => false
  | i + 1 =>
    match lineText.get? i with
    | some c =>
      if c = '$' then true
      else if isWordCharB c || isSpaceChar c || c = '(' || c = ')' then
        isVariableReference lineText i
      else false
    | none => isVariableReference lineText i

/-- First index at which `::` occurs. -/
def findColons : List Char → Option Nat
  | [] => none
  | [_] => none
  | a :: b :: rest =>
    if a = ':' && b = ':' then some 0
    else match findColons (b :: rest) with
      | some k => some (k + 1)
      | none => none

/-- Whether the text contains the scope separator `::`. -/
def containsColons (l : List Char) : Bool :=
  (findColons l).isSome

/-- Fuel-indexed `split('::')`. -/
def splitScopeF : Nat → List Char → List (List Char)
  | 0, l => [l]
  | fuel + 1, l =>
    match findColons l with
    | none => [l]
    | some k => l.take k :: splitScopeF fuel (l.drop (k + 2))

/-- JavaScript `qualifiedName.split('::')`. -/
def splitScope (l : List Char) : List (List Char) :=
  splitScopeF l.length l

/-- `parts.slice(0, -1).join('::')`: the namespace path of a qualified name. -/
def nsPathOf (qualifiedName : List Char) : List Char :=
  List.intercalate "::".toList (splitScope qualifiedName).dropLast

/-- `parts[parts.length - 1]`: the leaf of a qualified name. -/
def leafOf (qualifiedName : List Char) : List Char :=
  (splitScope qualifiedName).getLastD []

/-- `getContainingProcedureRange`: scan all `proc ... \x7b...\x7d \x7b` spans whose body
brace matches, keep those containing the position, and among them keep the
first, replacing it whenever a later one is strictly tighter on both ends. -/
def keepTighter (best : Option (Nat × Nat)) (r : Nat × Nat) : Option (Nat × Nat) :=
  match best with
  | none => some r
  | some b => if r.2 < b.2 && b.1 < r.1 then some r else some b

/-- Candidate extraction for one `proc` match of the containing-scope search:
the brace-matched range when it contains the position. -/
def containingCandidate (text : List Char) (pos : Nat) (m : Nat × Nat) :
    Option (Nat × Nat) :=
  match truthy (findMatchingBrace text (m.1 + m.2 - 1)) with
  | some procBodyEnd =>
    if posInRange m.1 (procBodyEnd + 1) pos then some (m.1, procBodyEnd + 1) else none
  | none => none

def getContainingProcedureRange (text : List Char) (pos : Nat) :
    Option (Nat × Nat) :=
  (execAll matchProcAnyName id text).foldl
    (fun best m =>
      match containingCandidate text pos m with
      | some r => keepTighter best r
      | none => best) none

/-- The brace-matched `proc` ranges that contain the position, in scan order. -/
def containingCandidates (text : List Char) (pos : Nat) : List (Nat × Nat) :=
  (execAll matchProcAnyName id text).filterMap (containingCandidate text pos)

/-- `findVariableDefinition` of the definition provider: global `set ::name`
search for `::`-prefixed names, then the containing-procedure scope, then the
whole document; returns `none` (without invoking Cross-File Search) on failure. -/
def findVariableDefinition (text varName : List Char) (pos : Nat) :
    Option (Nat × Nat) :=
  let isArrayRef := varName.contains '('
  let varBaseName := if isArrayRef then varName.takeWhile (fun c => c ≠ '(') else varName
  let globalHit : Option (Nat × Nat) :=
    if "::".toList.isPrefixOf varName then
      let globalName := varName.drop 2
      match searchFirst (matchSetNameWs ("::".toList ++ globalName)) text with
      | some (i, len) => some (i, i + len + 1)
      | none => none
    else none
  match globalHit with
  | some r => some r
  | none =>
    let localHit : Option (Nat × Nat) :=
      match getContainingProcedureRange text pos with
      | some (cs, ce) =>
        let procText := slice text cs ce
        match searchFirst (matchSetNameWs varBaseName) procText with
        | some (i, len) => some (cs + i, cs + i + len + 1)
        | none =>
          match searchFirst (matchVariableNameWs varBaseName) procText with
          | some (i, len) => some (cs + i, cs + i + len)
          | none => none
      | none => none
    match localHit with
    | some r => some r
    | none =>
      match searchFirst (matchSetNameWs varBaseName) text with
      | some (i, len) => some (i, i + len + 1)
      | none =>
        match searchFirst (matchVariableNameWs varBaseName) text with
        | some (i, len) => some (i, i + len)
        | none => none

/-- `findNamespaceQualifiedDefinition`: locate the named namespace's block, then
search its body text for the leaf as a procedure or a `variable` declaration;
on any failure invoke Cross-File Search with the fully qualified name. -/
def findNamespaceQualifiedDefinition (text qualifiedName : List Char) :
    DefOutcome :=
  let nsName := nsPathOf qualifiedName
  let symName := leafOf qualifiedName
  match searchFirst (matchNsEvalNameBrace nsName) text with
  | some (i, len) =>
    let nsBodyStart := i + len - 1
    match truthy (findMatchingBrace text nsBodyStart) with
    | some nsBodyEnd =>
      let nsBody := slice text (nsBodyStart + 1) nsBodyEnd
      match searchFirst (matchProcNameBrace symName) nsBody with
      | some (pi, plen) =>
        let s := nsBodyStart + 1 + pi
        let procBodyStart := nsBodyStart + 1 + pi + plen - 1
        let e := match truthy (findMatchingBrace text procBodyStart) with
          | some pe => pe + 1
          | none => lineEnd text s
        .found s e
      | none =>
        match searchFirst (matchVariableNameWs symName) nsBody with
        | some (vi, vlen) => .found (nsBodyStart + 1 + vi) (nsBodyStart + 1 + vi + vlen)
        | none => .crossFile qualifiedName
    | none => .crossFile qualifiedName
  | none => .crossFile qualifiedName

/-- `findProcedureDefinition`: first `proc NAME \x7b` match in the document,
with the body's brace-matched end (or the declaring line on failure). -/
def findProcedureDefinition (text procName : List Char) : Option (Nat × Nat) :=
  match searchFirst (matchProcNameBrace procName) text with
  | some (i, len) =>
    let procBodyStart := i + len - 1
    match truthy (findMatchingBrace text procBodyStart) with
    | some e => some (i, e + 1)
    | none => some (i, lineEnd text i)
  | none => none

/-- `findNamespaceDefinition`: first `namespace eval NAME \x7b` match. -/
def findNamespaceDefinition (text nsName : List Char) : Option (Nat × Nat) :=
  match searchFirst (matchNsEvalNameBrace nsName) text with
  | some (i, len) =>
    let nsBodyStart := i + len - 1
    match truthy (findMatchingBrace text nsBodyStart) with
    | some e => some (i, e + 1)
    | none => some (i, lineEnd text i)
  | none => none

/-- `provideDefinition`: dispatch on the reference context — variable references
(`$`-prefixed), then namespace-qualified names, then bare words (procedure,
then namespace, then Cross-File Search). -/
def provideDefinition (text lineText word : List Char) (charPos pos : Nat) :
    DefOutcome :=
  if isVariableReference lineText charPos then
    match findVariableDefinition text word pos with
    | some (s, e) => .found s e
    | none => .noResult
  else if containsColons word then
    findNamespaceQualifiedDefinition text word
  else
    match findProcedureDefinition text word with
    | some (s, e) => .found s e
    | none =>
      match findNamespaceDefinition text word with
      | some (s, e) => .found s e
      | none => .crossFile word

/-! ### The hover provider's doc-comment extraction -/

/-- JavaScript `text.lastIndexOf('\n', fromIndex)` (single-character search):
the largest index `≤ max(fromIndex, 0)` holding a newline, or `-1`. -/
def jsLastIndexOfNl (text : List Char) (fromIndex : Int) : Int :=
  let bound := fromIndex.toNat
  match lastIdxWhere (fun c => c = nl) (text.take (bound + 1)) with
  | some k => (k : Int)
  | none => -1

/-- JavaScript `text.substring(a, b)` with clamping and argument swapping. -/
def jsSubstring (text : List Char) (a b : Int) : List Char :=
  let a' := min a.toNat text.length
  let b' := min b.toNat text.length
  slice text (min a' b') (max a' b')

/-- Loop body of `extractDocComment`: collect comment lines backwards from
`currentPos`, prepending each found comment (the source's `unshift`). -/
def collectComments (text : List Char) :
    Nat → Int → List (List Char) → List (List Char)
  | 0, _, comments => comments
  | fuel + 1, currentPos, comments =>
    if currentPos < 0 then comments
    else
      let prevLineEnd := jsLastIndexOfNl text currentPos
      if prevLineEnd = -1 then comments
      else
        let line := trimChars (jsSubstring text (prevLineEnd + 1) (currentPos + 1))
        match line with
        | c :: lrest =>
          if c = '#' then
            collectComments text fuel (prevLineEnd - 1) (trimChars lrest :: comments)
          else comments
        | [] => collectComments text fuel (prevLineEnd - 1) comments

/-- `extractDocComment(text, symbolPos)`: the contiguous run of `#` comment
lines above the declaration line, joined with newlines. -/
def extractDocComment (text : List Char) (symbolPos : Nat) : List Char :=
  let lineStartPos := jsLastIndexOfNl text ((symbolPos : Int) - 1)
  if lineStartPos = -1 then []
  else
    List.intercalate [nl]
      (collectComments text (text.length + 2) (lineStartPos - 1) [])

/-- Shorthand for the depth-counter update of one scan step. -/
def stepCount (count : Nat) (c : Char) : Nat :=
  if c = lbrace then count + 1 else if c = rbrace then count - 1 else count

/-- The strict "tighter containing span" relation of the source: later start and
earlier end. -/
def tighterB (r b : Nat × Nat) : Bool :=
  decide (r.2 < b.2) && decide (b.1 < r.1)

/-- Whether no top-level symbol of the list contains the given symbol's range
(the condition under which `findEnclosingSymbol` returns null). -/
def noTopContains (l : SymList) (c : Sym) : Bool :=
  match l with
  | .nil => true
  | .cons s r => !rangeContains s.rS s.rE c.rS c.rE && noTopContains r c

/-- Per-child containment conditions of the (amended) containment invariant:
local-variable and array children of a procedure, and control-block children of
any symbol, must lie inside the parent's range. -/
def childOk (pk : SymKind) (prS prE : Nat) (c : Sym) : Bool :=
  (if pk = SymKind.functionK &&
      (c.kind = SymKind.variableK || c.kind = SymKind.arrayK) then
    rangeContains prS prE c.rS c.rE else true) &&
  (if c.kind = SymKind.objectK then rangeContains prS prE c.rS c.rE else true)

mutual
/-- The amended containment invariant on a symbol: its declaration span starts
where its range starts, and its children satisfy `childOk` recursively. -/
def symOk : Sym → Bool
  | .mk _ _ k rS rE sS _ ch => decide (sS = rS) && childListOk k rS rE ch
/-- The amended containment invariant on a child list of a symbol with the given
kind and range. -/
def childListOk (pk : SymKind) (prS prE : Nat) : SymList → Bool
  | .nil => true
  | .cons c r => childOk pk prS prE c && symOk c && childListOk pk prS prE r
end

/-- The amended containment invariant on the top-level symbol list (the
top level has no parent constraints). -/
def topOk : SymList → Bool
  | .nil => true
  | .cons s r => symOk s && topOk r

/-! ### Lemmas about the brace matcher -/

@[simp] lemma braceSum_nil : braceSum [] = 0 := rfl

@[simp] lemma braceSum_cons (c : Char) (l : List Char) :
    braceSum (c :: l) = braceDelta c + braceSum l := by
  simp [braceSum]

lemma lbrace_ne_rbrace : lbrace ≠ rbrace := by decide

@[simp] lemma braceDelta_lbrace : braceDelta lbrace = 1 := by
  simp [braceDelta]

@[simp] lemma braceDelta_rbrace : braceDelta rbrace = -1 := by
  simp [braceDelta, lbrace_ne_rbrace.symm]

lemma stepCount_zero (count : Nat) (c : Char) (hcount : 1 ≤ count)
    (hz : stepCount count c = 0) : c = rbrace ∧ count = 1 := by
  unfold stepCount at hz
  by_cases h1 : c = lbrace
  · rw [if_pos h1] at hz; omega
  · by_cases h2 : c = rbrace
    · rw [if_neg h1, if_pos h2] at hz; exact ⟨h2, by omega⟩
    · rw [if_neg h1, if_neg h2] at hz; omega

lemma stepCount_cast (count : Nat) (c : Char) (hcount : 1 ≤ count) :
    ((stepCount count c : Nat) : Int) = (count : Int) + braceDelta c := by
  unfold stepCount braceDelta
  by_cases h1 : c = lbrace
  · rw [if_pos h1, if_pos h1]; push_cast; ring
  · by_cases h2 : c = rbrace
    · rw [if_neg h1, if_neg h1, if_pos h2, if_pos h2]; omega
    · rw [if_neg h1, if_neg h1, if_neg h2, if_neg h2]; omega

lemma findMatchingBraceAux_step (c : Char) (rest : List Char) (pos count : Nat) :
    findMatchingBraceAux (c :: rest) pos count =
      (if stepCount count c = 0 then some pos
       else findMatchingBraceAux rest (pos + 1) (stepCount count c)) := rfl

lemma aux_some_spec :
    ∀ (l : List Char) (pos count j : Nat), 1 ≤ count →
      findMatchingBraceAux l pos count = some j →
      ∃ n, j = pos + n ∧ n < l.length ∧ l.get? n = some rbrace ∧
        (count : Int) + braceSum (l.take (n + 1)) = 0 ∧
        ∀ m, m ≤ n → 0 < (count : Int) + braceSum (l.take m) := by
  intro l
  induction l with
  | nil => intro pos count j _ h; simp [findMatchingBraceAux] at h
  | cons c rest ih =>
    intro pos count j hcount h
    rw [findMatchingBraceAux_step] at h
    by_cases hz : stepCount count c = 0
    · rw [if_pos hz] at h
      have hj : j = pos := (Option.some_inj.mp h).symm
      obtain ⟨hcr, hc1⟩ := stepCount_zero count c hcount hz
      subst hcr
      refine ⟨0, by omega, by simp, by simp, ?_, ?_⟩
      · simp [hc1]
      · intro m hm
        have hm0 : m = 0 := Nat.le_zero.mp hm
        subst hm0
        simpa using (by exact_mod_cast hcount : (0 : Int) < count)
    · rw [if_neg hz] at h
      have hcount' : 1 ≤ stepCount count c := Nat.one_le_iff_ne_zero.mpr hz
      obtain ⟨n, hn, hlen, hget, hsum, hpre⟩ := ih (pos + 1) _ j hcount' h
      rw [stepCount_cast count c hcount] at hsum hpre
      refine ⟨n + 1, by omega, by simpa using Nat.succ_lt_succ hlen,
        by simpa using hget, ?_, ?_⟩
      · rw [List.take_succ_cons, braceSum_cons]
        linarith [hsum]
      · intro m hm
        match m with
        | 0 => simpa using (by exact_mod_cast hcount : (0 : Int) < count)
        | m' + 1 =>
          rw [List.take_succ_cons, braceSum_cons]
          have := hpre m' (by omega)
          linarith [this]

lemma aux_none_spec :
    ∀ (l : List Char) (pos count : Nat), 1 ≤ count →
      findMatchingBraceAux l pos count = none →
      ∀ m, m ≤ l.length → 0 < (count : Int) + braceSum (l.take m) := by
  intro l
  induction l with
  | nil =>
    intro pos count hcount _ m hm
    have hm0 : m = 0 := by simpa using hm
    subst hm0
    simpa using (by exact_mod_cast hcount : (0 : Int) < count)
  | cons c rest ih =>
    intro pos count hcount h m hm
    rw [findMatchingBraceAux_step] at h
    by_cases hz : stepCount count c = 0
    · rw [if_pos hz] at h; exact absurd h (by simp)
    · rw [if_neg hz] at h
      have hcount' : 1 ≤ stepCount count c := Nat.one_le_iff_ne_zero.mpr hz
      match m with
      | 0 => simpa using (by exact_mod_cast hcount : (0 : Int) < count)
      | m' + 1 =>
        rw [List.take_succ_cons, braceSum_cons]
        have := ih (pos + 1) _ hcount' h m' (by simpa using hm)
        rw [stepCount_cast count c hcount] at this
        linarith [this]

/-- C1: for every text and offset, the brace matcher scans forward with a depth
counter starting at 1 (incrementing on an opening brace, decrementing on a
closing brace); when it returns an offset, that offset holds a closing brace,
the depth there is exactly 0, and the depth at every earlier scanned offset is
still positive (exactly balanced preceding depth); when the end of the text is
reached before the depth reaches 0 (e.g. one extra opening brace), it returns
`NotFound` (`none`), and indeed the depth stays positive throughout. -/
theorem brace_matcher_depth_spec (text : List Char) (i : Nat) :
    (∀ j, findMatchingBrace text i = some j →
      i < j ∧ j < text.length ∧ text.get? j = some rbrace ∧
      depthAfter text i j = 0 ∧ ∀ k, i ≤ k → k < j → 0 < depthAfter text i k)
    ∧ (findMatchingBrace text i = none →
      ∀ j, i ≤ j → j ≤ text.length → 0 < depthAfter text i j) := by
  constructor
  · intro j h
    obtain ⟨n, hn, hlen, hget, hsum, hpre⟩ :=
      aux_some_spec (text.drop (i + 1)) (i + 1) 1 j (le_refl 1) h
    push_cast at hsum hpre
    have hlen' : n < text.length - (i + 1) := by simpa using hlen
    have hj1 : i < j := by omega
    have hj2 : j < text.length := by omega
    refine ⟨hj1, hj2, ?_, ?_, ?_⟩
    · have hg : (List.drop (i + 1) text)[n]? = some rbrace := by
        simpa [List.get?_eq_getElem?] using hget
      rw [List.getElem?_drop] at hg
      have hidx : i + 1 + n = j := by omega
      rw [List.get?_eq_getElem?]
      rwa [hidx] at hg
    · show 1 + braceSum ((text.drop (i + 1)).take (j - i)) = 0
      have hidx : j - i = n + 1 := by omega
      rw [hidx]
      linarith [hsum]
    · intro k hk1 hk2
      show 0 < 1 + braceSum ((text.drop (i + 1)).take (k - i))
      have := hpre (k - i) (by omega)
      linarith [this]
  · intro h j hj1 hj2
    have hall := aux_none_spec (text.drop (i + 1)) (i + 1) 1 (le_refl 1) h
    push_cast at hall
    show 0 < 1 + braceSum ((text.drop (i + 1)).take (j - i))
    by_cases hle : j - i ≤ (text.drop (i + 1)).length
    · have := hall (j - i) hle
      linarith [this]
    · have hfull : (text.drop (i + 1)).take (j - i) = text.drop (i + 1) :=
        List.take_of_length_le (by omega)
      have := hall (text.drop (i + 1)).length (le_refl _)
      rw [List.take_length] at this
      rw [hfull]
      linarith [this]

/-- Witness for C1 at a concrete input: on the text consisting of nested braces
around a letter, the matcher finds the closing brace of the outer pair, and the
spec's conclusions hold there concretely. -/
theorem brace_matcher_depth_spec_witness :
    findMatchingBrace "\x7b\x7ba\x7d\x7d".toList 0 = some 4 ∧
      ("\x7b\x7ba\x7d\x7d".toList.get? 4 = some rbrace ∧
        depthAfter "\x7b\x7ba\x7d\x7d".toList 0 4 = 0) := by
  refine ⟨by decide, ?_⟩
  have h := (brace_matcher_depth_spec "\x7b\x7ba\x7d\x7d".toList 0).1 4 (by decide)
  exact ⟨h.2.2.1, h.2.2.2.1⟩

/-! ### Lemmas about the scanning engine -/

lemma scanFirst_lt_length (p : Option Char → List Char → Option α) :
    ∀ (prev : Option Char) (l : List Char) (j : Nat) (a : α),
      scanFirst p prev l = some (j, a) → j < l.length := by
  intro prev l
  induction l generalizing prev with
  | nil => intro j a h; simp [scanFirst] at h
  | cons c rest ih =>
    intro j a h
    rw [scanFirst] at h
    cases hp : p prev (c :: rest) with
    | some b =>
      simp only [hp] at h
      cases h
      simp
    | none =>
      simp only [hp] at h
      cases hs : scanFirst p (some c) rest with
      | none => simp [hs] at h
      | some jb =>
        obtain ⟨j', b⟩ := jb
        simp only [hs] at h
        cases h
        have := ih (some c) _ _ hs
        simpa using Nat.succ_lt_succ this

lemma searchFirst_lt_length (p : Option Char → List Char → Option α)
    (text : List Char) (j : Nat) (a : α)
    (h : searchFirst p text = some (j, a)) : j < text.length :=
  scanFirst_lt_length p none text j a h

/-- C6: when resolving a bare word (no scope separator, not a `$`-prefixed
variable reference), the procedure lookup is tried first, then the namespace
lookup, and the workspace Cross-File Search is invoked exactly when both the
procedure and the namespace lookups in the current document fail; a variable
declaration is never consulted on this path. -/
theorem bareword_lookup_precedence (text lineText word : List Char)
    (charPos pos : Nat)
    (hvar : isVariableReference lineText charPos = false)
    (hsep : containsColons word = false) :
    (∀ s e, findProcedureDefinition text word = some (s, e) →
        provideDefinition text lineText word charPos pos = .found s e) ∧
    (findProcedureDefinition text word = none →
      ∀ s e, findNamespaceDefinition text word = some (s, e) →
        provideDefinition text lineText word charPos pos = .found s e) ∧
    (findProcedureDefinition text word = none →
      findNamespaceDefinition text word = none →
      provideDefinition text lineText word charPos pos = .crossFile word) := by
  refine ⟨?_, ?_, ?_⟩
  · intro s e hp
    simp [provideDefinition, hvar, hsep, hp]
  · intro hp s e hn
    simp [provideDefinition, hvar, hsep, hp, hn]
  · intro hp hn
    simp [provideDefinition, hvar, hsep, hp, hn]

/-- Witness for C6: on a document with one global procedure `f`, the bare word
`f` resolves to that procedure; on the same document the bare word `g` (no
procedure, no namespace) goes to Cross-File Search. -/
theorem bareword_lookup_precedence_witness :
    provideDefinition "proc f \x7b\x7d \x7bx\x7d\n".toList "f".toList "f".toList 0 0
        = .found 0 9 ∧
      provideDefinition "proc f \x7b\x7d \x7bx\x7d\n".toList "g".toList "g".toList 0 0
        = .crossFile "g".toList := by
  constructor
  · exact (bareword_lookup_precedence _ _ _ 0 0 (by decide) (by decide)).1 0 9 (by decide)
  · exact (bareword_lookup_precedence _ _ _ 0 0 (by decide) (by decide)).2.2
      (by decide) (by decide)

/-- C2: for a definition query on a qualified name (dispatched there when the
word contains `::` and is not a `$`-prefixed variable reference), the resolver
splits the word into namespace path and leaf, locates the named namespace's
brace-matched block, and searches only that block's body text: a procedure hit
yields a location starting inside the block's body interval (so never an
identically-named procedure outside the block); when the namespace is absent,
Cross-File Search is invoked with the fully qualified name, and likewise when
the block's body contains neither a matching procedure nor a matching
`variable` declaration. -/
theorem qualified_lookup_scoped (text lineText word : List Char)
    (charPos pos : Nat) :
    (isVariableReference lineText charPos = false → containsColons word = true →
      provideDefinition text lineText word charPos pos =
        findNamespaceQualifiedDefinition text word) ∧
    (∀ i len be pi plen,
      searchFirst (matchNsEvalNameBrace (nsPathOf word)) text = some (i, len) →
      truthy (findMatchingBrace text (i + len - 1)) = some be →
      searchFirst (matchProcNameBrace (leafOf word))
          (slice text (i + len - 1 + 1) be) = some (pi, plen) →
      ∃ e, findNamespaceQualifiedDefinition text word =
            .found (i + len - 1 + 1 + pi) e ∧
          i + len - 1 + 1 ≤ i + len - 1 + 1 + pi ∧ i + len - 1 + 1 + pi < be) ∧
    (searchFirst (matchNsEvalNameBrace (nsPathOf word)) text = none →
      findNamespaceQualifiedDefinition text word = .crossFile word) ∧
    (∀ i len be,
      searchFirst (matchNsEvalNameBrace (nsPathOf word)) text = some (i, len) →
      truthy (findMatchingBrace text (i + len - 1)) = some be →
      searchFirst (matchProcNameBrace (leafOf word))
          (slice text (i + len - 1 + 1) be) = none →
      searchFirst (matchVariableNameWs (leafOf word))
          (slice text (i + len - 1 + 1) be) = none →
      findNamespaceQualifiedDefinition text word = .crossFile word) := by
  refine ⟨?_, ?_, ?_, ?_⟩
  · intro hvar hsep
    simp [provideDefinition, hvar, hsep]
  · intro i len be pi plen h1 h2 h3
    have hlt : pi < (slice text (i + len - 1 + 1) be).length :=
      searchFirst_lt_length _ _ _ _ h3
    have hlt2 : pi < be - (i + len - 1 + 1) := by
      have : (slice text (i + len - 1 + 1) be).length ≤ be - (i + len - 1 + 1) := by
        simp [slice]
      omega
    cases hpe : truthy (findMatchingBrace text (i + len - 1 + 1 + pi + plen - 1)) with
    | some pe =>
      exact ⟨pe + 1,
        by simp [findNamespaceQualifiedDefinition, h1, h2, h3, hpe],
        by omega, by omega⟩
    | none =>
      exact ⟨lineEnd text (i + len - 1 + 1 + pi),
        by simp [findNamespaceQualifiedDefinition, h1, h2, h3, hpe],
        by omega, by omega⟩
  · intro h1
    simp [findNamespaceQualifiedDefinition, h1]
  · intro i len be h1 h2 h3 h4
    simp [findNamespaceQualifiedDefinition, h1, h2, h3, h4]

/-- Witness for C2, the scenario of the specification: a document with a global
`proc calculateSum` at offset 0 and a namespace `MyNamespace` containing its own
`proc calculateSum`; the qualified query resolves to the one inside the
namespace body (offsets 63..99), not to the global one at offset 0. -/
theorem qualified_lookup_scoped_witness :
    findNamespaceQualifiedDefinition
        ("proc calculateSum \x7ba b\x7d \x7breturn 0\x7d\nnamespace eval MyNamespace \x7b\nproc calculateSum \x7ba b\x7d \x7breturn 1\x7d\n\x7d\n".toList)
        "MyNamespace::calculateSum".toList = .found 64 87 ∧ 63 < 64 ∧ 64 < 99 := by
  have h := (qualified_lookup_scoped
    ("proc calculateSum \x7ba b\x7d \x7breturn 0\x7d\nnamespace eval MyNamespace \x7b\nproc calculateSum \x7ba b\x7d \x7breturn 1\x7d\n\x7d\n".toList)
    [] "MyNamespace::calculateSum".toList 0 0).2.1 35 28 99 1 19
    (by decide) (by decide) (by decide)
  obtain ⟨e, he, _, hlt⟩ := h
  have h87 : DefOutcome.found (35 + 28 - 1 + 1 + 1) e = DefOutcome.found 64 87 := by
    rw [← he]; decide
  refine ⟨?_, by omega, by omega⟩
  rw [he]; exact h87

/-! ### Lemmas about the containing-scope search -/

lemma keepTighter_none (r : Nat × Nat) : keepTighter none r = some r := rfl

lemma keepTighter_some (b r : Nat × Nat) :
    keepTighter (some b) r = if tighterB r b then some r else some b := by
  simp [keepTighter, tighterB]

lemma tighterB_trans {a b c : Nat × Nat} (h1 : tighterB a b = true)
    (h2 : tighterB b c = true) : tighterB a c = true := by
  simp [tighterB] at h1 h2 ⊢; omega

lemma tighterB_asymm {a b : Nat × Nat} (h1 : tighterB a b = true)
    (h2 : tighterB b a = true) : False := by
  simp [tighterB] at h1 h2; omega

lemma tighterB_irrefl (a : Nat × Nat) : tighterB a a = false := by
  simp [tighterB]

lemma foldl_keepTighter_spec :
    ∀ (cands : List (Nat × Nat)) (b r : Nat × Nat),
      List.foldl keepTighter (some b) cands = some r →
      (r = b ∨ r ∈ cands) ∧ (tighterB r b = true ∨ r = b) ∧
        ∀ c ∈ cands, tighterB c r = false := by
  intro cands
  induction cands with
  | nil =>
    intro b r h
    simp at h
    exact ⟨Or.inl h.symm, Or.inr h.symm, by simp⟩
  | cons c rest ih =>
    intro b r h
    rw [List.foldl_cons, keepTighter_some] at h
    by_cases hc : tighterB c b = true
    · rw [if_pos hc] at h
      obtain ⟨hmem, hrel, hall⟩ := ih c r h
      refine ⟨?_, ?_, ?_⟩
      · rcases hmem with h1 | h1
        · exact Or.inr (by simp [h1])
        · exact Or.inr (by simp [h1])
      · rcases hrel with h1 | h1
        · exact Or.inl (tighterB_trans h1 hc)
        · exact Or.inl (h1 ▸ hc)
      · intro d hd
        rcases List.mem_cons.mp hd with h1 | h1
        · subst h1
          rcases hrel with h2 | h2
          · by_contra hcon
            exact tighterB_asymm h2 (by simpa using hcon)
          · subst h2; exact tighterB_irrefl r
        · exact hall d h1
    · rw [if_neg hc] at h
      obtain ⟨hmem, hrel, hall⟩ := ih b r h
      refine ⟨?_, ?_, ?_⟩
      · rcases hmem with h1 | h1
        · exact Or.inl h1
        · exact Or.inr (by simp [h1])
      · exact hrel
      · intro d hd
        rcases List.mem_cons.mp hd with h1 | h1
        · subst h1
          rcases hrel with h2 | h2
          · by_contra hcon
            exact absurd (tighterB_trans (by simpa using hcon) h2) (by simpa using hc)
          · subst h2; simpa using hc
        · exact hall d h1

lemma foldl_keepTighter_top :
    ∀ (cands : List (Nat × Nat)) (r : Nat × Nat),
      List.foldl keepTighter none cands = some r →
      r ∈ cands ∧ ∀ c ∈ cands, tighterB c r = false := by
  intro cands r h
  cases cands with
  | nil => simp at h
  | cons c rest =>
    rw [List.foldl_cons] at h
    have hstep : keepTighter none c = some c := rfl
    rw [hstep] at h
    obtain ⟨hmem, hrel, hall⟩ := foldl_keepTighter_spec rest c r h
    refine ⟨?_, ?_⟩
    · rcases hmem with h1 | h1
      · simp [h1]
      · simp [h1]
    · intro d hd
      rcases List.mem_cons.mp hd with h1 | h1
      · subst h1
        rcases hrel with h2 | h2
        · by_contra hcon
          exact tighterB_asymm h2 (by simpa using hcon)
        · subst h2; exact tighterB_irrefl r
      · exact hall d h1

lemma foldl_candidate_fuse (text : List Char) (pos : Nat) :
    ∀ (l : List (Nat × Nat)) (acc : Option (Nat × Nat)),
      List.foldl
        (fun best m =>
          match containingCandidate text pos m with
          | some r => keepTighter best r
          | none => best) acc l
        = List.foldl keepTighter acc (l.filterMap (containingCandidate text pos)) := by
  intro l
  induction l with
  | nil => intro acc; simp
  | cons m rest ih =>
    intro acc
    rw [List.foldl_cons, List.filterMap_cons]
    cases hm : containingCandidate text pos m with
    | none => simpa [hm] using ih acc
    | some r => simpa [hm] using ih (keepTighter acc r)

lemma getContainingProcedureRange_eq (text : List Char) (pos : Nat) :
    getContainingProcedureRange text pos =
      List.foldl keepTighter none (containingCandidates text pos) := by
  unfold getContainingProcedureRange containingCandidates
  exact foldl_candidate_fuse text pos _ none

lemma containingCandidates_contain (text : List Char) (pos : Nat) :
    ∀ c ∈ containingCandidates text pos, posInRange c.1 c.2 pos = true := by
  intro c hc
  obtain ⟨m, _, hm⟩ := List.mem_filterMap.mp hc
  unfold containingCandidate at hm
  cases hb : truthy (findMatchingBrace text (m.1 + m.2 - 1)) with
  | none => simp [hb] at hm
  | some e =>
    simp only [hb] at hm
    by_cases hin : posInRange m.1 (e + 1) pos = true
    · rw [if_pos hin] at hm
      cases hm
      exact hin
    · rw [if_neg hin] at hm
      exact absurd hm (by simp)

/-- C3: for an unqualified variable reference, the lookup first computes the
innermost containing procedure scope — the returned range contains the
reference position, is one of the brace-matched `proc` spans containing it, and
no such span is strictly tighter (later start and earlier end) — and any
`set name` declaration found inside that scope is returned directly, with a
location starting inside the scope, before the document-wide search is ever
consulted (so a local `set x` beats a namespace-level `variable x` outside the
procedure). -/
theorem variable_lookup_prefers_local (text word : List Char) (pos : Nat) :
    (∀ r, getContainingProcedureRange text pos = some r →
      posInRange r.1 r.2 pos = true ∧ r ∈ containingCandidates text pos ∧
        ∀ c ∈ containingCandidates text pos, tighterB c r = false) ∧
    ("::".toList.isPrefixOf word = false → word.contains '(' = false →
      ∀ cs ce i len, getContainingProcedureRange text pos = some (cs, ce) →
        searchFirst (matchSetNameWs word) (slice text cs ce) = some (i, len) →
        findVariableDefinition text word pos = some (cs + i, cs + i + len + 1) ∧
          cs ≤ cs + i ∧ cs + i < ce) := by
  constructor
  · intro r hr
    rw [getContainingProcedureRange_eq] at hr
    obtain ⟨hmem, hall⟩ := foldl_keepTighter_top _ r hr
    exact ⟨containingCandidates_contain text pos r hmem, hmem, hall⟩
  · intro hpre harr cs ce i len hrange hset
    have hlt : i < (slice text cs ce).length := searchFirst_lt_length _ _ _ _ hset
    have hlen : (slice text cs ce).length ≤ ce - cs := by simp [slice]
    refine ⟨?_, by omega, by omega⟩
    simp only [findVariableDefinition, hpre, harr, hrange, hset, Bool.false_eq_true,
      if_false, ite_false]

/-- Witness for C3, the scenario of the specification: a namespace declaring
`variable x` containing a procedure that declares a local `set x`; looked up
from inside the procedure, the returned declaration is the local `set x`
(offsets 45..52, inside the procedure range 33..62), not the namespace-level
`variable x` (offset 20). -/
theorem variable_lookup_prefers_local_witness :
    findVariableDefinition
        "namespace eval NS \x7b\nvariable x 5\nproc p \x7b\x7d \x7b\nset x 7\nputs $x\n\x7d\n\x7d\n".toList
        "x".toList 55 = some (45, 52) ∧ 33 ≤ 45 ∧ 45 < 62 := by
  have h := (variable_lookup_prefers_local
    "namespace eval NS \x7b\nvariable x 5\nproc p \x7b\x7d \x7b\nset x 7\nputs $x\n\x7d\n\x7d\n".toList
    "x".toList 55).2 (by decide) (by decide) 33 62 12 6 (by decide) (by decide)
  exact ⟨h.1, by omega, by omega⟩

/-- Counterexample to C7: on the document `variable ::x 5`, the lookup of the
`::`-prefixed name `::x` finds no global `set ::x` declaration, yet it does not
fall through to Cross-File Search — it continues into the document-wide
`set`/`variable` searches and returns the `variable ::x` declaration (offsets
0..13), so the search is not restricted to Global declarations and Cross-File
Search is not invoked; with no declaration at all (name `::y`) the outcome is
`noResult`, again not Cross-File Search. -/
theorem globalvar_lookup_cex :
    searchFirst (matchSetNameWs ("::x".toList)) "variable ::x 5\n".toList = none ∧
    findVariableDefinition "variable ::x 5\n".toList "::x".toList 0 = some (0, 13) ∧
    provideDefinition "variable ::x 5\n".toList "$::x".toList "::x".toList 1 0
      = .found 0 13 ∧
    provideDefinition "variable ::x 5\n".toList "$::y".toList "::y".toList 1 0
      = .noResult := by
  refine ⟨by decide, by decide, by decide, by decide⟩

/-- C7 as amended: for a variable reference whose name starts with the
global-scope prefix `::`, the global `set ::name` declarations are searched
first — a hit is returned directly — but on a miss the lookup continues with the
same fully qualified name through the containing-procedure and document-wide
`set`/`variable` searches, and if everything misses it returns `NotFound`;
Cross-File Search is never invoked from the variable-reference path. -/
theorem globalvar_lookup_amended (text lineText word : List Char)
    (charPos pos : Nat) :
    (∀ i len, "::".toList.isPrefixOf word = true →
      searchFirst (matchSetNameWs ("::".toList ++ word.drop 2)) text = some (i, len) →
      findVariableDefinition text word pos = some (i, i + len + 1)) ∧
    (isVariableReference lineText charPos = true →
      ∀ q, provideDefinition text lineText word charPos pos ≠ .crossFile q) := by
  constructor
  · intro i len hpre hglob
    simp only [findVariableDefinition, hpre, hglob, if_true, ite_true]
  · intro hvar q
    simp only [provideDefinition, hvar, if_true, ite_true]
    cases findVariableDefinition text word pos with
    | none => simp
    | some r => obtain ⟨s, e⟩ := r; simp

/-- Witness for the amended C7: with a global `set ::g 1` declaration in the
document, the lookup of `::g` returns it (offsets 0..9), and a `$`-context query
never produces a Cross-File Search outcome. -/
theorem globalvar_lookup_amended_witness :
    findVariableDefinition "set ::g 1\n".toList "::g".toList 0 = some (0, 9) ∧
      provideDefinition "set ::g 1\n".toList "$::g".toList "::g".toList 1 0
        ≠ .crossFile "::g".toList := by
  constructor
  · exact (globalvar_lookup_amended "set ::g 1\n".toList [] "::g".toList 0 0).1
      0 8 (by decide) (by decide)
  · exact (globalvar_lookup_amended "set ::g 1\n".toList "$::g".toList "::g".toList 1 0).2
      (by decide) "::g".toList

/-! ### Lemmas about the local-variable scan -/

lemma foldl_append_one {β : Type} (f : β → Sym) :
    ∀ (l : List β) (acc : List Sym),
      List.foldl (fun (a : List Sym) m => a ++ [f m]) acc l = acc ++ l.map f := by
  intro l
  induction l with
  | nil => intro acc; simp
  | cons m rest ih => intro acc; rw [List.foldl_cons, ih]; simp

lemma localSetStep_any (off : Nat) (acc : List Sym)
    (m : Nat × List Char × List Char × Nat) (nm : List Char) :
    (localSetStep off acc m).any (fun s => s.name = nm)
      = (acc.any (fun s => s.name = nm) || (decide (m.2.1 = nm)
          && !acc.any (fun child => child.name = m.2.1))) := by
  unfold localSetStep
  by_cases hg : acc.any (fun child => child.name = m.2.1) = true
  · rw [if_pos hg, hg]
    simp
  · rw [if_neg hg]
    simp only [Bool.not_eq_true] at hg
    rw [List.any_append]
    have hname : (mkLocalVarSym off m).name = m.2.1 := rfl
    simp [hname, hg]

lemma localSetFold_count :
    ∀ (ms : List (Nat × List Char × List Char × Nat)) (off : Nat) (acc : List Sym),
      (∀ nm, ((acc.filter (fun s => decide (s.name = nm))).length ≤ 1)) →
      ∀ nm, (((ms.foldl (localSetStep off) acc).filter
          (fun s => decide (s.name = nm))).length ≤ 1) := by
  intro ms
  induction ms with
  | nil => intro off acc hinv nm; simpa using hinv nm
  | cons m rest ih =>
    intro off acc hinv nm
    rw [List.foldl_cons]
    refine ih off _ ?_ nm
    intro nm'
    unfold localSetStep
    by_cases hg : acc.any (fun child => child.name = m.2.1) = true
    · rw [if_pos hg]; exact hinv nm'
    · rw [if_neg hg]
      rw [List.filter_append]
      simp only [Bool.not_eq_true] at hg
      by_cases he : m.2.1 = nm'
      · have hempty : acc.filter (fun s => decide (s.name = nm')) = [] := by
          rw [List.filter_eq_nil_iff]
          intro s hs
          have h3 := List.any_eq_false.mp hg s hs
          simp only [decide_eq_true_eq] at h3 ⊢
          rw [← he]
          exact h3
        rw [hempty]
        simpa using List.length_filter_le
          (fun s => decide (s.name = nm')) [mkLocalVarSym off m]
      · have h1 := hinv nm'
        have hname : (mkLocalVarSym off m).name = m.2.1 := rfl
        have h2 : (([mkLocalVarSym off m]).filter (fun s => decide (s.name = nm'))).length = 0 := by
          simp [List.filter, hname, he]
        rw [List.length_append]
        omega

lemma localSetFold_mono :
    ∀ (ms : List (Nat × List Char × List Char × Nat)) (off : Nat) (acc : List Sym)
      (s : Sym), s ∈ acc → s ∈ ms.foldl (localSetStep off) acc := by
  intro ms
  induction ms with
  | nil => intro off acc s hs; simpa using hs
  | cons m rest ih =>
    intro off acc s hs
    rw [List.foldl_cons]
    refine ih off _ s ?_
    unfold localSetStep
    by_cases hg : acc.any (fun child => child.name = m.2.1) = true
    · rw [if_pos hg]; exact hs
    · rw [if_neg hg]; exact List.mem_append_left _ hs

lemma localSetFold_first :
    ∀ (ms : List (Nat × List Char × List Char × Nat)) (off : Nat) (acc : List Sym)
      (nm : List Char) (m : Nat × List Char × List Char × Nat),
      acc.any (fun s => s.name = nm) = false →
      ms.find? (fun m' => decide (m'.2.1 = nm)) = some m →
      mkLocalVarSym off m ∈ ms.foldl (localSetStep off) acc := by
  intro ms
  induction ms with
  | nil => intro off acc nm m _ hf; simp at hf
  | cons m0 rest ih =>
    intro off acc nm m hacc hf
    rw [List.foldl_cons]
    by_cases h0 : m0.2.1 = nm
    · rw [List.find?_cons_of_pos _ (by simpa using h0)] at hf
      cases hf
      have hg : acc.any (fun child => decide (child.name = m0.2.1)) = false := by
        rw [h0]; exact hacc
      refine localSetFold_mono rest off _ _ ?_
      unfold localSetStep
      rw [if_neg (by simp [hg])]
      exact List.mem_append_right _ (by simp)
    · rw [List.find?_cons_of_neg _ (by simpa using h0)] at hf
      refine ih off _ nm m ?_ hf
      rw [localSetStep_any]
      simp [hacc, h0]

/-- Counterexample to C8: in the procedure body containing two
`array set x \x7b...\x7d` lines, the name `x` is recorded three times among the
procedure's children (once by the `set` scan, which also matches the text of an
`array set` line, and once per `array set` match, appended without
de-duplication) — not exactly once. -/
theorem localvar_dedup_cex :
    ((provideDocumentSymbols
        "proc f \x7b\x7d \x7b\narray set x \x7ba b\x7d\narray set x \x7bc d\x7d\n\x7d\n".toList).nth? 0).map
      (fun f => f.children.names)
      = some ["x".toList, "x".toList, "x".toList] := by
  decide

/-- C8 as amended: within the `set`-declaration scan of a procedure body each
name is recorded at most once and the recorded declaration is the first `set`
occurrence; however the subsequent `array set` scan appends its matches without
that check, so the same name may be recorded again as an Array child (an
`array set` line itself also matches the `set` pattern). -/
theorem localvar_dedup_amended (procBody : List Char) (off : Nat) :
    (∀ nm, (((localSetPhase procBody off).filter
        (fun s => decide (s.name = nm))).length ≤ 1)) ∧
    (∀ nm m, (execAll matchLocalSet (fun x => x.2.2) procBody).find?
          (fun m' => decide (m'.2.1 = nm)) = some m →
        mkLocalVarSym off m ∈ localSetPhase procBody off) ∧
    processLocalVariables procBody off =
      localSetPhase procBody off ++
        (execAll matchArraySet (fun x => x.2) procBody).map (mkArraySym off) := by
  refine ⟨?_, ?_, ?_⟩
  · intro nm
    exact localSetFold_count _ off [] (by simp) nm
  · intro nm m hf
    exact localSetFold_first _ off [] nm m (by simp) hf
  · unfold processLocalVariables
    exact foldl_append_one (mkArraySym off) _ _

/-- Witness for the amended C8: in a body that assigns `x` twice, the recorded
child is the first `set x 1` occurrence (span 0..7), exactly once. -/
theorem localvar_dedup_amended_witness :
    mkLocalVarSym 0 (0, "x".toList, "1".toList, 7) ∈
        localSetPhase "set x 1\nset x 2\n".toList 0 ∧
      ((localSetPhase "set x 1\nset x 2\n".toList 0).filter
        (fun s => decide (s.name = "x".toList))).length ≤ 1 := by
  constructor
  · exact (localvar_dedup_amended "set x 1\nset x 2\n".toList 0).2.1 "x".toList
      (0, "x".toList, "1".toList, 7) (by decide)
  · exact (localvar_dedup_amended "set x 1\nset x 2\n".toList 0).1 "x".toList

/-! ### Lemmas about the block extractor's failure fallback -/

lemma symListCount_append : ∀ (a b : SymList),
    symListCount (a.append b) = symListCount a + symListCount b
  | .nil, b => by simp [SymList.append, symListCount]
  | .cons s r, b => by
    simp only [SymList.append, symListCount, symListCount_append r b]
    omega

lemma symListCount_single (s : Sym) : symListCount (SymList.single s) = symCount s := by
  simp [SymList.single, symListCount]

lemma attachToLastNs_count : ∀ (st : SymList) (nm : List Char) (c : Sym),
    hasNsNamed st nm = true →
    symListCount (attachToLastNs st nm c) = symListCount st + symCount c
  | .nil, nm, c => by intro h; simp [hasNsNamed] at h
  | .cons s r, nm, c => by
    intro h
    rw [attachToLastNs.eq_def]
    dsimp only
    by_cases hr : hasNsNamed r nm = true
    · rw [if_pos hr]
      simp only [symListCount, attachToLastNs_count r nm c hr]
      omega
    · rw [if_neg hr]
      have hs : (s.kind = SymKind.namespaceK && s.name = nm) = true := by
        rw [hasNsNamed] at h
        rcases Bool.or_eq_true_iff.mp h with h1 | h1
        · exact h1
        · exact absurd h1 hr
      rw [if_pos hs]
      cases s with
      | mk n d k a b g hsel ch =>
        simp only [symListCount, symCount, symListCount_append, symListCount_single]
        omega

lemma processProcedures_count (text : List Char) :
    ∀ (ms : List (Nat × ProcHeadM)) (st : SymList),
      symListCount (ms.foldl
        (fun st m =>
          let psym := buildProcSym text m.1 m.2
          match m.2.nsPart with
          | some nsName =>
            if hasNsNamed st nsName then attachToLastNs st nsName psym
            else st.append (.single psym)
          | none => st.append (.single psym)) st) =
      symListCount st + (ms.map (fun m => symCount (buildProcSym text m.1 m.2))).sum := by
  intro ms
  induction ms with
  | nil => intro st; simp
  | cons m rest ih =>
    intro st
    rw [List.foldl_cons, ih, List.map_cons, List.sum_cons]
    cases hns : m.2.nsPart with
    | none => simp only [symListCount_append, symListCount_single]; omega
    | some nsName =>
      by_cases hh : hasNsNamed st nsName = true
      · simp only [hh, if_true, attachToLastNs_count st nsName _ hh]
        omega
      · simp only [hh, if_false, Bool.false_eq_true, symListCount_append,
          symListCount_single]
        omega

/-- C5: when the brace matcher fails on an extracted block, the extractor does
not abort: a global-procedure match whose body brace is unmatched still yields
a symbol whose span is the line-bounded span of the declaring line (and no
children), a namespace match (with a matched header brace) whose brace match
fails likewise falls back to the declaring line, and the procedure pass still
yields exactly one symbol per header match of the whole document, so subsequent
top-level constructs are scanned unaffected. -/
theorem extractor_brace_fallback (text : List Char) :
    (∀ m ∈ execAll matchProcHeader (fun h => h.len) text,
      truthy (findMatchingBrace text (m.1 + m.2.len - 1)) = none →
      buildProcSym text m.1 m.2 =
        Sym.mk m.2.procName (argsDetail m.2.argsText) .functionK
          m.1 (lineEnd text m.1) m.1 (lineEnd text m.1) .nil) ∧
    (∀ m ∈ execAll matchNsHeader (fun h => h.len) text, ∀ k, m.2.braceRel = some k →
      truthy (findMatchingBraceI text ((m.1 : Int) + k)) = none →
      (buildNsSym text m.1 m.2).rS = m.1 ∧
        (buildNsSym text m.1 m.2).rE = lineEnd text m.1) ∧
    (∀ st, symListCount (processProcedures text st) =
      symListCount st +
        ((execAll matchProcHeader (fun h => h.len) text).map
          (fun m => symCount (buildProcSym text m.1 m.2))).sum) := by
  refine ⟨?_, ?_, ?_⟩
  · intro m _ hfail
    simp only [buildProcSym, hfail]
    rfl
  · intro m _ k hk hfail
    have hb : ((m.1 : Int) + match m.2.braceRel with
        | some k => (k : Int)
        | none => -1) = (m.1 : Int) + k := by rw [hk]
    simp only [buildNsSym, hb, hfail]
    exact ⟨rfl, rfl⟩
  · intro st
    unfold processProcedures
    exact processProcedures_count text _ st

/-- Witness for C5, the unterminated-brace scenario: `proc a` opens a body brace
that is never closed before end of file; its symbol degrades to the declaring
line's span (offsets 0..11) with no children, while the following `proc b`
inside the unterminated text is still extracted intact, with its local variable
`y`. -/
theorem extractor_brace_fallback_witness :
    buildProcSym "proc a \x7b\x7d \x7b\nproc b \x7b\x7d \x7bset y 2\x7d\n".toList 0
        ⟨none, "a".toList, [], 11⟩ =
      Sym.mk "a".toList (argsDetail []) .functionK 0 11 0 11 .nil ∧
      (provideDocumentSymbols "proc a \x7b\x7d \x7b\nproc b \x7b\x7d \x7bset y 2\x7d\n".toList).names
        = ["a".toList, "b".toList] ∧
      ((provideDocumentSymbols "proc a \x7b\x7d \x7b\nproc b \x7b\x7d \x7bset y 2\x7d\n".toList).nth? 1).map
        (fun b => b.children.names) = some ["y".toList] := by
  refine ⟨?_, by decide, by decide⟩
  have h := (extractor_brace_fallback
      "proc a \x7b\x7d \x7b\nproc b \x7b\x7d \x7bset y 2\x7d\n".toList).1
    (0, ⟨none, "a".toList, [], 11⟩) (by decide) (by decide)
  have hle : lineEnd "proc a \x7b\x7d \x7b\nproc b \x7b\x7d \x7bset y 2\x7d\n".toList 0 = 11 := by
    decide
  rw [hle] at h
  exact h

/-- C9: the doc-comment extractor's backward collection stops as soon as there
is no newline before the line under inspection, so a comment on the very first
line of the file is never collected: with the declaration on line 1 directly
under a first-line comment the extracted documentation is empty, and with a
two-line comment run starting at the file's first line only the second comment
line is returned.  Both evaluate the code at the failing inputs of the claim. -/
theorem doc_comment_first_line_dropped :
    extractDocComment "# adds numbers\nproc add \x7ba b\x7d \x7breturn\x7d\n".toList 15 = [] ∧
      extractDocComment "# a\n# b\nproc f\n".toList 8 = "b".toList := by
  refine ⟨by decide, by decide⟩

/-! ### Lemmas about control-block insertion -/

mutual
theorem insertSym_count : ∀ (c : Sym) (l l' : SymList),
    insertSym c l = some l' → symListCount l' = symListCount l + symCount c
  | c, .nil, l' => by intro h; simp [insertSym] at h
  | c, .cons s rest, l' => by
    intro h
    rw [insertSym.eq_def] at h
    dsimp only at h
    by_cases hc : rangeContains s.rS s.rE c.rS c.rE = true
    · rw [if_pos hc] at h
      cases h
      simp only [symListCount, attachSym_count c s]
      omega
    · rw [if_neg hc] at h
      cases hrest : insertSym c rest with
      | none => rw [hrest] at h; exact absurd h (by simp)
      | some r =>
        rw [hrest] at h
        cases h
        simp only [symListCount, insertSym_count c rest r hrest]
        omega

theorem attachSym_count : ∀ (c s : Sym),
    symCount (attachSym c s) = symCount s + symCount c
  | c, .mk n d k a b g h ch => by
    rw [attachSym.eq_def]
    dsimp only
    cases hch : insertSym c ch with
    | some ch2 =>
      simp only [symCount, insertSym_count c ch ch2 hch]
      omega
    | none =>
      simp only [symCount, symListCount_append, symListCount_single]
      omega
end

theorem insertSym_none_iff : ∀ (c : Sym) (l : SymList),
    insertSym c l = none ↔ noTopContains l c = true
  | c, .nil => by simp [insertSym, noTopContains]
  | c, .cons s rest => by
    rw [insertSym.eq_def, noTopContains]
    dsimp only
    by_cases hc : rangeContains s.rS s.rE c.rS c.rE = true
    · rw [if_pos hc]
      simp [hc]
    · rw [if_neg hc]
      have hrec := insertSym_none_iff c rest
      cases hrest : insertSym c rest with
      | some r =>
        rw [hrest] at hrec
        have hnotop : noTopContains rest c = false := by
          cases hx : noTopContains rest c
          · rfl
          · exact absurd (hrec.mpr hx) (by simp)
        simp [hnotop]
      | none =>
        rw [hrest] at hrec
        have hcf : rangeContains s.rS s.rE c.rS c.rE = false := by
          simpa using hc
        simp [hcf, hrec.mp rfl]

lemma controlSymsOf_leaf (text : List Char) :
    ∀ c ∈ controlSymsOf text, symCount c = 1 := by
  unfold controlSymsOf
  generalize execAll matchControl (fun x => x.2) text = ms
  induction ms with
  | nil => intro c hc; simp at hc
  | cons m rest ih =>
    intro c hc
    rw [List.foldr_cons] at hc
    revert hc
    cases lastBraceIdx (slice text m.1 (m.1 + m.2.2)) with
    | none => intro hc; exact ih c hc
    | some rel =>
      dsimp only
      cases findMatchingBrace text (m.1 + rel) with
      | none => intro hc; exact ih c hc
      | some closeBracePos =>
        dsimp only
        by_cases hline : lineOf text (closeBracePos + 1) = lineOf text m.1
        · rw [if_pos hline]; intro hc; exact ih c hc
        · rw [if_neg hline]
          intro hc
          rcases List.mem_cons.mp hc with h1 | h1
          · subst h1; rfl
          · exact ih c h1

lemma foldl_insertControl_count :
    ∀ (cs : List Sym) (st : SymList), (∀ c ∈ cs, symCount c = 1) →
      symListCount (cs.foldl insertControlStep st) = symListCount st + cs.length := by
  intro cs
  induction cs with
  | nil => intro st _; simp
  | cons c rest ih =>
    intro st hall
    rw [List.foldl_cons, ih _ (fun d hd => hall d (List.mem_cons_of_mem c hd))]
    have hstep : symListCount (insertControlStep st c) = symListCount st + 1 := by
      unfold insertControlStep
      cases hi : insertSym c st with
      | some st2 =>
        rw [insertSym_count c st st2 hi, hall c (by simp)]
      | none =>
        rw [symListCount_append, symListCount_single, hall c (by simp)]
    rw [hstep, List.length_cons]
    omega

/-- Counterexample to C10: on a document where `proc NS::f` (declared outside
the `namespace eval NS` block, hence recorded as a child of the namespace symbol
but spanning offsets 22..57, outside the namespace's range 0..21) contains a
multi-line `if` block (offsets 38..55), the control block is appended at the top
level of the outline even though the previously built symbol `f` fully contains
its range — `findEnclosingSymbol` only inspects top-level symbols, so the
block does not become a child of the containing symbol. -/
theorem control_block_attach_cex :
    ((provideDocumentSymbols
        "namespace eval NS \x7b\n\x7d\nproc NS::f \x7b\x7d \x7b\nif \x7b1\x7d \x7b\nputs x\n\x7d\n\x7d\n".toList).nth? 1).map
        (fun c => (c.kind, c.rS, c.rE)) = some (.objectK, 38, 55) ∧
      (do
        let ns ← (provideDocumentSymbols
          "namespace eval NS \x7b\n\x7d\nproc NS::f \x7b\x7d \x7b\nif \x7b1\x7d \x7b\nputs x\n\x7d\n\x7d\n".toList).nth? 0
        let f ← ns.children.nth? 0
        pure (rangeContains f.rS f.rE 38 55, f.children.length)) = some (true, 0) := by
  refine ⟨by decide, by decide⟩

/-- C10 as amended: for every multi-line control block discovered by the outline
query, if no symbol at the top level of the list built so far contains the
block's range, the block is appended at the top level; otherwise it is attached
beneath the first containing top-level symbol, descending recursively
(`attachSym`); a block is never dropped — the total number of symbols grows by
exactly one per discovered block. -/
theorem control_block_attach_amended (text : List Char) :
    (∀ (c : Sym) (st : SymList),
      (insertSym c st = none ↔ noTopContains st c = true) ∧
      (noTopContains st c = true → insertControlStep st c = st.append (.single c))) ∧
    (∀ (c s : Sym) (rest : SymList),
      rangeContains s.rS s.rE c.rS c.rE = true →
        insertSym c (.cons s rest) = some (.cons (attachSym c s) rest)) ∧
    (∀ st, symListCount (processControlBlocks text st) =
      symListCount st + (controlSymsOf text).length) := by
  refine ⟨?_, ?_, ?_⟩
  · intro c st
    refine ⟨insertSym_none_iff c st, ?_⟩
    intro h
    unfold insertControlStep
    rw [(insertSym_none_iff c st).mpr h]
  · intro c s rest hc
    rw [insertSym.eq_def]
    dsimp only
    rw [if_pos hc]
  · intro st
    unfold processControlBlocks
    exact foldl_insertControl_count _ st (controlSymsOf_leaf text)

/-- Witness for the amended C10: a control block contained in a top-level
procedure is attached beneath it, and on the counterexample document the symbol
count grows by exactly the one discovered block. -/
theorem control_block_attach_amended_witness :
    insertSym (Sym.mk "if".toList [] .objectK 12 20 12 14 .nil)
        (.cons (Sym.mk "p".toList [] .functionK 10 30 10 12 .nil) .nil)
      = some (.cons (attachSym (Sym.mk "if".toList [] .objectK 12 20 12 14 .nil)
          (Sym.mk "p".toList [] .functionK 10 30 10 12 .nil)) .nil) ∧
      symListCount (processControlBlocks
        "proc t \x7b\x7d \x7b\nif \x7b1\x7d \x7b\nputs x\n\x7d\n\x7d\n".toList .nil) = 1 := by
  constructor
  · exact (control_block_attach_amended []).2.1
      (Sym.mk "if".toList [] .objectK 12 20 12 14 .nil)
      (Sym.mk "p".toList [] .functionK 10 30 10 12 .nil) .nil (by decide)
  · have h := (control_block_attach_amended
      "proc t \x7b\x7d \x7b\nif \x7b1\x7d \x7b\nputs x\n\x7d\n\x7d\n".toList).2.2 .nil
    rw [h]
    decide

/-! ### Consumption bounds for the matchers -/

lemma pLit_spec {pat s : List Char} {n : Nat} {r : List Char}
    (h : pLit pat s = some (n, r)) : n + r.length = s.length := by
  unfold pLit at h
  split at h
  · rename_i hp
    cases h
    rw [List.isPrefixOf_iff_prefix] at hp
    have := hp.length_le
    simp [List.length_drop]
    omega
  · exact absurd h (by simp)

lemma pRun_spec (f : Char → Bool) (s : List Char) :
    (pRun f s).1 + (pRun f s).2.length = s.length := by
  unfold pRun
  have := congrArg List.length (List.takeWhile_append_dropWhile f s)
  rw [List.length_append] at this
  simpa using this

lemma pRun1_spec {f : Char → Bool} {s : List Char} {n : Nat} {r : List Char}
    (h : pRun1 f s = some (n, r)) : n + r.length = s.length := by
  unfold pRun1 at h
  split at h
  · exact absurd h (by simp)
  · have h2 : (n, r) = pRun f s := by
      cases h
      rfl
    rw [show n = (pRun f s).1 from by rw [← h2], show r = (pRun f s).2 from by rw [← h2]]
    exact pRun_spec f s

lemma pChar_spec {c : Char} {s : List Char} {n : Nat} {r : List Char}
    (h : pChar c s = some (n, r)) : n + r.length = s.length := by
  cases s with
  | nil => simp [pChar] at h
  | cons x rest =>
    simp only [pChar] at h
    split at h
    · cases h; simp; omega
    · simp at h

lemma takeWhile_length_le (f : Char → Bool) (l : List Char) :
    (l.takeWhile f).length ≤ l.length := by
  have := congrArg List.length (List.takeWhile_append_dropWhile f l)
  rw [List.length_append] at this
  omega

lemma pWsValueEol_le {s : List Char} {n : Nat} {v : List Char}
    (h : pWsValueEol s = some (n, v)) : n ≤ s.length := by
  unfold pWsValueEol at h
  dsimp only at h
  split at h
  · exact absurd h (by simp)
  · split at h
    · rename_i hw
      cases h
      have h1 := takeWhile_length_le (fun c => decide (c ≠ nl))
        (s.drop (s.takeWhile isSpaceChar).length)
      rw [List.length_drop] at h1
      omega
    · rename_i hw
      cases hlast : lastIdxWhere (fun c => c ≠ nl)
          ((s.take (s.takeWhile isSpaceChar).length).drop 1) with
      | none => rw [hlast] at h; exact absurd h (by simp)
      | some k =>
        rw [hlast] at h
        cases h
        have hk : k < ((s.take (s.takeWhile isSpaceChar).length).drop 1).length := by
          unfold lastIdxWhere at hlast
          cases hf : ((s.take (s.takeWhile isSpaceChar).length).drop 1).reverse.findIdx?
              (fun c => c ≠ nl) with
          | none => rw [hf] at hlast; exact absurd hlast (by simp)
          | some k2 =>
            rw [hf] at hlast
            cases hlast
            have := List.findIdx?_eq_some_iff_findIdx_eq.mp hf
            have hlen : k2 < ((s.take (s.takeWhile isSpaceChar).length).drop 1).reverse.length :=
              this.1
            rw [List.length_reverse] at hlen
            omega
        have h1 := takeWhile_length_le (fun c => decide (c ≠ nl)) (s.drop (k + 1))
        rw [List.length_drop] at h1
        rw [List.length_drop, List.length_take] at hk
        omega

lemma scanFirst_consume {α : Type} (p : Option Char → List Char → Option α)
    (lenOf : α → Nat)
    (hp : ∀ prev l a, p prev l = some a → lenOf a ≤ l.length) :
    ∀ (prev : Option Char) (l : List Char) (j : Nat) (a : α),
      scanFirst p prev l = some (j, a) → j + lenOf a ≤ l.length := by
  intro prev l
  induction l generalizing prev with
  | nil => intro j a h; simp [scanFirst] at h
  | cons c rest ih =>
    intro j a h
    rw [scanFirst] at h
    cases hm : p prev (c :: rest) with
    | some b =>
      simp only [hm] at h
      cases h
      have := hp prev (c :: rest) _ hm
      omega
    | none =>
      simp only [hm] at h
      cases hs : scanFirst p (some c) rest with
      | none => simp [hs] at h
      | some jb =>
        obtain ⟨j', b⟩ := jb
        simp only [hs] at h
        cases h
        have := ih (some c) _ _ hs
        simp only [List.length_cons]
        omega

lemma execAllF_bound {α : Type} (p : Option Char → List Char → Option α)
    (lenOf : α → Nat)
    (hp : ∀ prev l a, p prev l = some a → lenOf a ≤ l.length) :
    ∀ (fuel : Nat) (prev : Option Char) (l : List Char) (base : Nat),
      ∀ x ∈ execAllF p lenOf fuel prev l base,
        base ≤ x.1 ∧ x.1 + lenOf x.2 ≤ base + l.length := by
  intro fuel
  induction fuel with
  | zero => intro prev l base x hx; simp [execAllF] at hx
  | succ fuel ih =>
    intro prev l base x hx
    rw [execAllF] at hx
    cases hs : scanFirst p prev l with
    | none => rw [hs] at hx; simp at hx
    | some ja =>
      obtain ⟨j, a⟩ := ja
      rw [hs] at hx
      simp only [List.mem_cons] at hx
      rcases hx with hx | hx
      · subst hx
        have := scanFirst_consume p lenOf hp prev l j a hs
        constructor
        · simp
        · simp only
          omega
      · have hb := ih _ _ _ _ hx
        have hlen : (l.drop (j + max (lenOf a) 1)).length = l.length - (j + max (lenOf a) 1) := by
          simp
        have hj := scanFirst_lt_length p prev l j a hs
        have hcons := scanFirst_consume p lenOf hp prev l j a hs
        omega

lemma execAll_bound {α : Type} (p : Option Char → List Char → Option α)
    (lenOf : α → Nat)
    (hp : ∀ prev l a, p prev l = some a → lenOf a ≤ l.length)
    (text : List Char) :
    ∀ x ∈ execAll p lenOf text, x.1 + lenOf x.2 ≤ text.length := by
  intro x hx
  have := execAllF_bound p lenOf hp (text.length + 1) none text 0 x hx
  omega

lemma matchLocalSet_le (prev : Option Char) (s : List Char)
    (x : List Char × List Char × Nat) (h : matchLocalSet prev s = some x) :
    x.2.2 ≤ s.length := by
  unfold matchLocalSet at h
  cases h1 : pLit "set".toList s with
  | none => rw [h1] at h; simp at h
  | some p1 =>
    rw [h1] at h
    obtain ⟨n1, r1⟩ := p1
    simp only [Option.pure_def, Option.bind_eq_bind, Option.some_bind] at h
    cases h2 : pRun1 isSpaceChar r1 with
    | none => rw [h2] at h; simp at h
    | some p2 =>
      rw [h2] at h
      obtain ⟨n2, r2⟩ := p2
      simp only [Option.some_bind] at h
      cases h3 : pRun1 isWordCharB r2 with
      | none => rw [h3] at h; simp at h
      | some p3 =>
        rw [h3] at h
        obtain ⟨n3, r3⟩ := p3
        simp only [Option.some_bind] at h
        cases h4 : pWsValueEol r3 with
        | none => rw [h4] at h; simp at h
        | some p4 =>
          rw [h4] at h
          obtain ⟨n4, v⟩ := p4
          simp only [Option.some_bind] at h
          cases h
          have e1 := pLit_spec h1
          have e2 := pRun1_spec h2
          have e3 := pRun1_spec h3
          have e4 := pWsValueEol_le h4
          simp only
          omega

lemma matchArraySet_le (prev : Option Char) (s : List Char)
    (x : List Char × Nat) (h : matchArraySet prev s = some x) :
    x.2 ≤ s.length := by
  unfold matchArraySet at h
  cases h1 : pLit "array".toList s with
  | none => rw [h1] at h; simp at h
  | some p1 =>
    rw [h1] at h
    obtain ⟨n1, r1⟩ := p1
    simp only [Option.pure_def, Option.bind_eq_bind, Option.some_bind] at h
    cases h2 : pRun1 isSpaceChar r1 with
    | none => rw [h2] at h; simp at h
    | some p2 =>
      rw [h2] at h
      obtain ⟨n2, r2⟩ := p2
      simp only [Option.some_bind] at h
      cases h3 : pLit "set".toList r2 with
      | none => rw [h3] at h; simp at h
      | some p3 =>
        rw [h3] at h
        obtain ⟨n3, r3⟩ := p3
        simp only [Option.some_bind] at h
        cases h4 : pRun1 isSpaceChar r3 with
        | none => rw [h4] at h; simp at h
        | some p4 =>
          rw [h4] at h
          obtain ⟨n4, r4⟩ := p4
          simp only [Option.some_bind] at h
          cases h5 : pRun1 isWordCharB r4 with
          | none => rw [h5] at h; simp at h
          | some p5 =>
            rw [h5] at h
            obtain ⟨n5, r5⟩ := p5
            simp only [Option.some_bind] at h
            cases h6 : pRun1 isSpaceChar r5 with
            | none => rw [h6] at h; simp at h
            | some p6 =>
              rw [h6] at h
              obtain ⟨n6, r6⟩ := p6
              simp only [Option.some_bind] at h
              cases h7 : pChar lbrace r6 with
              | none => rw [h7] at h; simp at h
              | some p7 =>
                rw [h7] at h
                obtain ⟨n7, r7⟩ := p7
                simp only [Option.some_bind] at h
                cases h9 : pChar rbrace (pRun (fun c => c ≠ rbrace) r7).2 with
                | none => rw [h9] at h; simp at h
                | some p9 =>
                  rw [h9] at h
                  obtain ⟨n9, r9⟩ := p9
                  simp only [Option.some_bind] at h
                  cases h
                  have e1 := pLit_spec h1
                  have e2 := pRun1_spec h2
                  have e3 := pLit_spec h3
                  have e4 := pRun1_spec h4
                  have e5 := pRun1_spec h5
                  have e6 := pRun1_spec h6
                  have e7 := pChar_spec h7
                  have e8 := pRun_spec (fun c => c ≠ rbrace) r7
                  have e9 := pChar_spec h9
                  simp only
                  omega

/-! ### The containment invariant of the symbol tree -/

lemma truthy_some {o : Option Nat} {e : Nat} (h : truthy o = some e) : o = some e := by
  unfold truthy at h
  split at h
  · exact absurd h (by simp)
  · exact h

lemma findMatchingBrace_gt {text : List Char} {p e : Nat}
    (h : findMatchingBrace text p = some e) : p < e := by
  obtain ⟨n, hn, -, -, -, -⟩ := aux_some_spec (text.drop (p + 1)) (p + 1) 1 e (le_refl 1) h
  omega

@[simp] lemma Sym_name_mk (n d : List Char) (k : SymKind) (a b g h : Nat)
    (ch : SymList) : (Sym.mk n d k a b g h ch).name = n := rfl

@[simp] lemma Sym_kind_mk (n d : List Char) (k : SymKind) (a b g h : Nat)
    (ch : SymList) : (Sym.mk n d k a b g h ch).kind = k := rfl

@[simp] lemma Sym_rS_mk (n d : List Char) (k : SymKind) (a b g h : Nat)
    (ch : SymList) : (Sym.mk n d k a b g h ch).rS = a := rfl

@[simp] lemma Sym_rE_mk (n d : List Char) (k : SymKind) (a b g h : Nat)
    (ch : SymList) : (Sym.mk n d k a b g h ch).rE = b := rfl

@[simp] lemma Sym_sS_mk (n d : List Char) (k : SymKind) (a b g h : Nat)
    (ch : SymList) : (Sym.mk n d k a b g h ch).sS = g := rfl

@[simp] lemma Sym_sE_mk (n d : List Char) (k : SymKind) (a b g h : Nat)
    (ch : SymList) : (Sym.mk n d k a b g h ch).sE = h := rfl

@[simp] lemma Sym_children_mk (n d : List Char) (k : SymKind) (a b g h : Nat)
    (ch : SymList) : (Sym.mk n d k a b g h ch).children = ch := rfl

lemma topOk_append : ∀ (a b : SymList), topOk (a.append b) = (topOk a && topOk b)
  | .nil, b => by simp [SymList.append, topOk]
  | .cons s r, b => by
    simp [SymList.append, topOk, topOk_append r b, Bool.and_assoc]

lemma childListOk_append (pk : SymKind) (prS prE : Nat) :
    ∀ (a b : SymList), childListOk pk prS prE (a.append b)
      = (childListOk pk prS prE a && childListOk pk prS prE b)
  | .nil, b => by simp [SymList.append, childListOk]
  | .cons s r, b => by
    simp [SymList.append, childListOk, childListOk_append pk prS prE r b, Bool.and_assoc]

lemma childListOk_ofList (pk : SymKind) (prS prE : Nat) :
    ∀ (l : List Sym), childListOk pk prS prE (SymList.ofList l)
      = l.all (fun c => childOk pk prS prE c && symOk c)
  | [] => by simp [SymList.ofList, childListOk]
  | c :: r => by
    simp [SymList.ofList, childListOk, childListOk_ofList pk prS prE r, Bool.and_assoc]

lemma topOk_ofList : ∀ (l : List Sym), topOk (SymList.ofList l) = l.all symOk
  | [] => by simp [SymList.ofList, topOk]
  | c :: r => by simp [SymList.ofList, topOk, topOk_ofList r]

lemma topOk_single (s : Sym) : topOk (SymList.single s) = symOk s := by
  simp [SymList.single, topOk]

lemma localSetPhase_mem :
    ∀ (ms : List (Nat × List Char × List Char × Nat)) (off : Nat) (acc : List Sym)
      (s : Sym), s ∈ ms.foldl (localSetStep off) acc →
      s ∈ acc ∨ ∃ m ∈ ms, s = mkLocalVarSym off m := by
  intro ms
  induction ms with
  | nil => intro off acc s hs; exact Or.inl (by simpa using hs)
  | cons m rest ih =>
    intro off acc s hs
    rw [List.foldl_cons] at hs
    rcases ih off _ s hs with h1 | h1
    · unfold localSetStep at h1
      split at h1
      · exact Or.inl h1
      · rcases List.mem_append.mp h1 with h2 | h2
        · exact Or.inl h2
        · exact Or.inr ⟨m, by simp, by simpa using h2⟩
    · obtain ⟨m', hm', he⟩ := h1
      exact Or.inr ⟨m', List.mem_cons_of_mem m hm', he⟩

lemma processLocalVariables_mem (body : List Char) (off : Nat) (s : Sym)
    (hs : s ∈ processLocalVariables body off) :
    (∃ m ∈ execAll matchLocalSet (fun x => x.2.2) body, s = mkLocalVarSym off m) ∨
    (∃ m ∈ execAll matchArraySet (fun x => x.2) body, s = mkArraySym off m) := by
  unfold processLocalVariables at hs
  rw [foldl_append_one] at hs
  rcases List.mem_append.mp hs with h1 | h1
  · unfold localSetPhase at h1
    rcases localSetPhase_mem _ off [] s h1 with h2 | h2
    · simp at h2
    · exact Or.inl h2
  · obtain ⟨m, hm, he⟩ := List.mem_map.mp h1
    exact Or.inr ⟨m, hm, he.symm⟩

lemma processLocalVariables_ok (body : List Char) (off : Nat) (s : Sym)
    (hs : s ∈ processLocalVariables body off) :
    off ≤ s.rS ∧ s.rE ≤ off + body.length ∧ s.sS = s.rS ∧
      s.children = SymList.nil ∧
      (s.kind = SymKind.variableK ∨ s.kind = SymKind.arrayK) ∧
      symOk s = true := by
  rcases processLocalVariables_mem body off s hs with ⟨m, hm, he⟩ | ⟨m, hm, he⟩
  · subst he
    have hb := execAll_bound matchLocalSet (fun x => x.2.2)
      (fun prev l a ha => matchLocalSet_le prev l a ha) body m hm
    simp only at hb
    unfold mkLocalVarSym
    refine ⟨by simp, by simp; omega, rfl, rfl, Or.inl rfl, ?_⟩
    simp [symOk, childListOk]
  · subst he
    have hb := execAll_bound matchArraySet (fun x => x.2)
      (fun prev l a ha => matchArraySet_le prev l a ha) body m hm
    simp only at hb
    unfold mkArraySym
    refine ⟨by simp, by simp; omega, rfl, rfl, Or.inr rfl, ?_⟩
    simp [symOk, childListOk]

lemma childOk_of_kind (pk : SymKind) (prS prE : Nat) (c : Sym)
    (hpk : pk ≠ SymKind.functionK) (hk : c.kind ≠ SymKind.objectK) :
    childOk pk prS prE c = true := by
  unfold childOk
  rw [if_neg (by simp [hpk]), if_neg (by simp [hk])]
  rfl

lemma procChildren_ok (text : List Char) (startOff bodyStart e : Nat)
    (h1 : startOff ≤ bodyStart + 1) (he : bodyStart + 1 ≤ e) :
    childListOk SymKind.functionK startOff (e + 1)
      (SymList.ofList (processLocalVariables (slice text (bodyStart + 1) e)
        (bodyStart + 1))) = true := by
  rw [childListOk_ofList, List.all_eq_true]
  intro c hc
  obtain ⟨ho, hb, hss, hch, hkind, hok⟩ := processLocalVariables_ok _ _ c hc
  have hslice : (slice text (bodyStart + 1) e).length ≤ e - (bodyStart + 1) := by
    simp [slice]
  rw [Bool.and_eq_true]
  refine ⟨?_, hok⟩
  have hcont : rangeContains startOff (e + 1) c.rS c.rE = true := by
    unfold rangeContains
    simp only [Bool.and_eq_true, decide_eq_true_eq]
    omega
  unfold childOk
  rcases hkind with hk | hk <;> simp [hk, hcont]

lemma buildProcSym_ok (text : List Char) (idx : Nat) (m : ProcHeadM) :
    symOk (buildProcSym text idx m) = true ∧
      (buildProcSym text idx m).kind = SymKind.functionK := by
  simp only [buildProcSym]
  cases hbr : truthy (findMatchingBrace text (idx + m.len - 1)) with
  | none =>
    refine ⟨?_, rfl⟩
    simp [symOk, SymList.ofList, childListOk]
  | some e =>
    refine ⟨?_, rfl⟩
    have hgt := findMatchingBrace_gt (truthy_some hbr)
    simp only [symOk]
    rw [Bool.and_eq_true]
    refine ⟨by simp, ?_⟩
    exact procChildren_ok text idx (idx + m.len - 1) e (by omega) (by omega)

lemma processNamespaceVariables_ok (content : List Char) (off : Nat) (c : Sym)
    (hc : c ∈ processNamespaceVariables content off) :
    symOk c = true ∧ c.kind = SymKind.variableK := by
  unfold processNamespaceVariables at hc
  obtain ⟨m, hm, he⟩ := List.mem_map.mp hc
  subst he
  exact ⟨by simp [symOk, childListOk], rfl⟩

lemma processNamespaceProcedures_ok (text content : List Char) (off : Nat)
    (c : Sym) (hc : c ∈ processNamespaceProcedures text content off) :
    symOk c = true ∧ c.kind = SymKind.functionK := by
  unfold processNamespaceProcedures at hc
  obtain ⟨m, hm, he⟩ := List.mem_map.mp hc
  subst he
  refine ⟨?_, rfl⟩
  cases hbr : truthy (findMatchingBrace text (off + m.1 + m.2.2.2 - 1)) with
  | none => simp [symOk, hbr, SymList.ofList, childListOk]
  | some e =>
    have hgt := findMatchingBrace_gt (truthy_some hbr)
    simp only [symOk, hbr]
    rw [Bool.and_eq_true]
    refine ⟨by simp, ?_⟩
    exact procChildren_ok text (off + m.1) (off + m.1 + m.2.2.2 - 1) e
      (by omega) (by omega)

lemma buildNsSym_ok (text : List Char) (idx : Nat) (m : NsHeadM) :
    symOk (buildNsSym text idx m) = true ∧
      (buildNsSym text idx m).kind = SymKind.namespaceK := by
  simp only [buildNsSym]
  refine ⟨?_, rfl⟩
  simp only [symOk]
  rw [Bool.and_eq_true]
  refine ⟨by simp, ?_⟩
  rw [childListOk_ofList, List.all_eq_true]
  intro c hc
  rw [Bool.and_eq_true]
  rcases List.mem_append.mp hc with h1 | h1
  · obtain ⟨hok, hk⟩ := processNamespaceVariables_ok _ _ c h1
    exact ⟨childOk_of_kind _ _ _ c (by simp) (by simp [hk]), hok⟩
  · obtain ⟨hok, hk⟩ := processNamespaceProcedures_ok _ _ _ c h1
    exact ⟨childOk_of_kind _ _ _ c (by simp) (by simp [hk]), hok⟩

lemma processNamespaces_topOk (text : List Char) :
    topOk (SymList.ofList (processNamespaces text)) = true := by
  rw [topOk_ofList, List.all_eq_true]
  intro c hc
  unfold processNamespaces at hc
  obtain ⟨m, hm, he⟩ := List.mem_map.mp hc
  subst he
  exact (buildNsSym_ok text m.1 m.2).1

lemma attachSym_fields (c : Sym) : ∀ (s : Sym),
    (attachSym c s).kind = s.kind ∧ (attachSym c s).rS = s.rS ∧
      (attachSym c s).rE = s.rE ∧ (attachSym c s).sS = s.sS
  | .mk n d k a b g h ch => by
    rw [attachSym.eq_def]
    dsimp only
    cases insertSym c ch <;> simp

mutual
theorem insertSym_childListOk : ∀ (c : Sym) (pk : SymKind) (prS prE : Nat)
    (l l' : SymList), symOk c = true → c.kind = SymKind.objectK →
    childListOk pk prS prE l = true → insertSym c l = some l' →
    childListOk pk prS prE l' = true
  | c, pk, prS, prE, .nil, l' => by
    intro _ _ _ h
    simp [insertSym] at h
  | c, pk, prS, prE, .cons s rest, l' => by
    intro hok hkind hcl h
    rw [insertSym.eq_def] at h
    dsimp only at h
    simp only [childListOk, Bool.and_eq_true] at hcl
    obtain ⟨⟨hco, hso⟩, hrest⟩ := hcl
    by_cases hc : rangeContains s.rS s.rE c.rS c.rE = true
    · rw [if_pos hc] at h
      cases h
      have hf := attachSym_fields c s
      simp only [childListOk, Bool.and_eq_true]
      refine ⟨⟨?_, attachSym_symOk c s hok hkind hso hc⟩, hrest⟩
      have heq : childOk pk prS prE (attachSym c s) = childOk pk prS prE s := by
        unfold childOk
        rw [hf.1, hf.2.1, hf.2.2.1]
      rw [heq]
      exact hco
    · rw [if_neg hc] at h
      cases hr : insertSym c rest with
      | none => rw [hr] at h; simp at h
      | some r =>
        rw [hr] at h
        cases h
        simp only [childListOk, Bool.and_eq_true]
        exact ⟨⟨hco, hso⟩, insertSym_childListOk c pk prS prE rest r hok hkind hrest hr⟩

theorem attachSym_symOk : ∀ (c s : Sym), symOk c = true →
    c.kind = SymKind.objectK → symOk s = true →
    rangeContains s.rS s.rE c.rS c.rE = true → symOk (attachSym c s) = true
  | c, .mk n d k a b g h ch => by
    intro hok hkind hso hcont
    rw [attachSym.eq_def]
    dsimp only
    simp only [symOk, Bool.and_eq_true] at hso
    obtain ⟨hdecl, hch⟩ := hso
    cases hins : insertSym c ch with
    | some ch2 =>
      simp only [symOk, Bool.and_eq_true]
      exact ⟨hdecl, insertSym_childListOk c k a b ch ch2 hok hkind hch hins⟩
    | none =>
      simp only [symOk, Bool.and_eq_true]
      refine ⟨hdecl, ?_⟩
      rw [childListOk_append]
      simp only [Bool.and_eq_true]
      refine ⟨hch, ?_⟩
      simp only [SymList.single, childListOk, Bool.and_eq_true]
      refine ⟨⟨?_, hok⟩, trivial⟩
      unfold childOk
      rw [if_neg (by simp [hkind]), if_pos (by simpa using hkind)]
      simpa using hcont
end

theorem insertSym_topOk : ∀ (c : Sym) (l l' : SymList), symOk c = true →
    c.kind = SymKind.objectK → topOk l = true → insertSym c l = some l' →
    topOk l' = true
  | c, .nil, l' => by
    intro _ _ _ h
    simp [insertSym] at h
  | c, .cons s rest, l' => by
    intro hok hkind htop h
    rw [insertSym.eq_def] at h
    dsimp only at h
    simp only [topOk, Bool.and_eq_true] at htop
    obtain ⟨hs, hrest⟩ := htop
    by_cases hc : rangeContains s.rS s.rE c.rS c.rE = true
    · rw [if_pos hc] at h
      cases h
      simp only [topOk, Bool.and_eq_true]
      exact ⟨attachSym_symOk c s hok hkind hs hc, hrest⟩
    · rw [if_neg hc] at h
      cases hr : insertSym c rest with
      | none => rw [hr] at h; simp at h
      | some r =>
        rw [hr] at h
        cases h
        simp only [topOk, Bool.and_eq_true]
        exact ⟨hs, insertSym_topOk c rest r hok hkind hrest hr⟩

lemma attachToLastNs_topOk : ∀ (st : SymList) (nm : List Char) (c : Sym),
    topOk st = true → symOk c = true → c.kind ≠ SymKind.objectK →
    topOk (attachToLastNs st nm c) = true
  | .nil, nm, c => by intro _ _ _; simp [attachToLastNs, topOk]
  | .cons s rest, nm, c => by
    intro htop hok hkind
    rw [attachToLastNs.eq_def]
    dsimp only
    simp only [topOk, Bool.and_eq_true] at htop
    obtain ⟨hs, hrest⟩ := htop
    by_cases hr : hasNsNamed rest nm = true
    · rw [if_pos hr]
      simp only [topOk, Bool.and_eq_true]
      exact ⟨hs, attachToLastNs_topOk rest nm c hrest hok hkind⟩
    · rw [if_neg hr]
      by_cases hg : (s.kind = SymKind.namespaceK && s.name = nm) = true
      · rw [if_pos hg]
        cases s with
        | mk n d k a b g h ch =>
          simp only [topOk, Bool.and_eq_true]
          refine ⟨?_, hrest⟩
          simp only [Bool.and_eq_true, decide_eq_true_eq] at hg
          simp only [symOk, Bool.and_eq_true] at hs
          simp only [symOk, Bool.and_eq_true]
          refine ⟨hs.1, ?_⟩
          rw [childListOk_append]
          simp only [Bool.and_eq_true]
          refine ⟨hs.2, ?_⟩
          simp only [SymList.single, childListOk, Bool.and_eq_true]
          refine ⟨⟨?_, hok⟩, trivial⟩
          refine childOk_of_kind k a b c ?_ hkind
          have : k = SymKind.namespaceK := by simpa using hg.1
          rw [this]
          simp
      · rw [if_neg hg]
        simp only [topOk, Bool.and_eq_true]
        exact ⟨hs, attachToLastNs_topOk rest nm c hrest hok hkind⟩

lemma processProcedures_topOk (text : List Char) (st : SymList)
    (htop : topOk st = true) : topOk (processProcedures text st) = true := by
  unfold processProcedures
  generalize execAll matchProcHeader (fun h => h.len) text = ms
  induction ms generalizing st with
  | nil => simpa using htop
  | cons m rest ih =>
    rw [List.foldl_cons]
    refine ih _ ?_
    obtain ⟨hok, hkind⟩ := buildProcSym_ok text m.1 m.2
    cases hns : m.2.nsPart with
    | none =>
      rw [topOk_append]
      simp [htop, topOk_single, hok]
    | some nsName =>
      dsimp only
      by_cases hh : hasNsNamed st nsName = true
      · rw [if_pos hh]
        exact attachToLastNs_topOk st nsName _ htop hok (by simp [hkind])
      · rw [if_neg hh]
        rw [topOk_append]
        simp [htop, topOk_single, hok]

lemma processGlobalVariables_topOk (text : List Char) (st : SymList)
    (htop : topOk st = true) : topOk (processGlobalVariables text st) = true := by
  unfold processGlobalVariables
  generalize execAll matchGlobalVarDecl (fun x => x.2.2) text = ms
  induction ms generalizing st with
  | nil => simpa using htop
  | cons m rest ih =>
    rw [List.foldl_cons]
    refine ih _ ?_
    rw [topOk_append]
    simp only [Bool.and_eq_true]
    refine ⟨htop, ?_⟩
    rw [topOk_single]
    simp [symOk, childListOk]

lemma controlSymsOf_ok (text : List Char) :
    ∀ c ∈ controlSymsOf text, symOk c = true ∧ c.kind = SymKind.objectK := by
  unfold controlSymsOf
  generalize execAll matchControl (fun x => x.2) text = ms
  induction ms with
  | nil => intro c hc; simp at hc
  | cons m rest ih =>
    intro c hc
    rw [List.foldr_cons] at hc
    revert hc
    cases lastBraceIdx (slice text m.1 (m.1 + m.2.2)) with
    | none => intro hc; exact ih c hc
    | some rel =>
      dsimp only
      cases findMatchingBrace text (m.1 + rel) with
      | none => intro hc; exact ih c hc
      | some closeBracePos =>
        dsimp only
        by_cases hline : lineOf text (closeBracePos + 1) = lineOf text m.1
        · rw [if_pos hline]
          intro hc
          exact ih c hc
        · rw [if_neg hline]
          intro hc
          rcases List.mem_cons.mp hc with h1 | h1
          · subst h1
            exact ⟨by simp [symOk, childListOk], rfl⟩
          · exact ih c h1

lemma processControlBlocks_topOk (text : List Char) (st : SymList)
    (htop : topOk st = true) : topOk (processControlBlocks text st) = true := by
  unfold processControlBlocks
  have hall := controlSymsOf_ok text
  revert hall htop
  generalize controlSymsOf text = cs
  induction cs generalizing st with
  | nil => intro htop _; simpa using htop
  | cons c rest ih =>
    intro htop hall
    rw [List.foldl_cons]
    refine ih _ ?_ (fun d hd => hall d (List.mem_cons_of_mem c hd))
    obtain ⟨hok, hkind⟩ := hall c (by simp)
    unfold insertControlStep
    cases hins : insertSym c st with
    | some st2 => exact insertSym_topOk c st st2 hok hkind htop hins
    | none =>
      rw [topOk_append]
      simp [htop, topOk_single, hok]

/-- Counterexample to C4: on a document consisting of an empty
`namespace eval NS` block followed by a one-line `proc NS::f` with trailing
text, the outline's namespace symbol `NS` spans offsets 0..21 while its child
`f` (attached through the namespace map because of the qualified name) spans
22..45 — entirely outside the parent — and `f`'s declaration span runs to its
line end at 48, beyond its body span's end 45; both containment conjuncts of
the claim fail on this returned symbol tree. -/
theorem outline_containment_cex :
    ((provideDocumentSymbols
        "namespace eval NS \x7b\n\x7d\nproc NS::f \x7b\x7d \x7bset q 1\x7d xx\n".toList).nth? 0).map
      (fun ns => (ns.rS, ns.rE)) = some (0, 21) ∧
    (((provideDocumentSymbols
        "namespace eval NS \x7b\n\x7d\nproc NS::f \x7b\x7d \x7bset q 1\x7d xx\n".toList).nth? 0).bind
      (fun ns => ns.children.nth? 0)).map
      (fun f => (f.rS, f.rE, f.sS, f.sE)) = some (22, 45, 22, 48) ∧
    rangeContains 0 21 22 45 = false ∧ decide (48 ≤ 45) = false := by
  refine ⟨by decide, by decide, by decide, by decide⟩

/-- C4 as amended: for every symbol tree returned by the outline query, each
symbol's declaration span starts at its body span's start; each local-variable
and array child of a procedure symbol lies fully inside the procedure's body
span; and each control-block symbol lies fully inside its parent's body span.
(Namespace children and the tail of a declaration line are not so bounded, as
the counterexample shows.) -/
theorem outline_containment_amended (text : List Char) :
    topOk (provideDocumentSymbols text) = true := by
  unfold provideDocumentSymbols
  exact processControlBlocks_topOk text _
    (processGlobalVariables_topOk text _
      (processProcedures_topOk text _ (processNamespaces_topOk text)))

end TclNav
